import Mathlib

/-!
# Verification of the splitwise ledger arithmetic engine

Shallow embedding of `src/lib/utils.ts`: the split calculator
(`calculateSplits` and its three policy helpers), the balance aggregator
(`calculateGroupBalances`) and the debt simplifier
(`calculateMinimumTransactions`).

Monetary values are modelled as rationals (`ℚ`).  JavaScript's
`Math.floor` is `Int.floor` and `Math.round` is Mathlib's `round`
(both round half-way cases towards positive infinity, so they agree on
every rational).  A JavaScript `Map` is modelled as an insertion-ordered
association list with unique keys: `set` of a present key updates it in
place, `set` of a fresh key appends, and `forEach` iterates in insertion
order, exactly as ECMAScript specifies.  Functions that `throw` are
embedded with result type `Except String _`.
-/

set_option maxHeartbeats 1000000

namespace Splitwise

/-- One member's owed share of an expense (`{ user_id, amount }`). -/
structure Split where
  user_id : String
  amount : ℚ
deriving DecidableEq

/-- A custom split input (`{ user_id, amount?, percentage? }`). -/
structure CustomSplit where
  user_id : String
  amount : Option ℚ := none
  percentage : Option ℚ := none
deriving DecidableEq

/-- An expense as consumed by the aggregator (`{ payer_id, splits }`). -/
structure Expense where
  payer_id : String
  splits : List Split
deriving DecidableEq

/-- A settlement record (`{ payer_id, payee_id, amount }`). -/
structure Settlement where
  payer_id : String
  payee_id : String
  amount : ℚ
deriving DecidableEq

/-- A simplifier output transaction (`{ from, to, amount }`); `from` is a
Lean keyword so the field is named `from_`. -/
structure Transaction where
  from_ : String
  to_ : String
  amount : ℚ
deriving DecidableEq

/-- `Math.floor` on a rational, as a rational. -/
def jsFloor (x : ℚ) : ℚ := (⌊x⌋ : ℤ)

/-- `Math.round` on a rational, as a rational.  `Math.round` rounds
half-way cases towards `+∞`, which is exactly Mathlib's `round`. -/
def jsRound (x : ℚ) : ℚ := (round x : ℤ)

/-- `calculateEqualSplit` from `src/lib/utils.ts` (lines 35-47):
`perPerson = Math.floor((totalAmount * 100) / n) / 100`,
`remainder = Math.round((totalAmount - perPerson * n) * 100) / 100`,
first member gets `perPerson + remainder`, everyone else `perPerson`. -/
def calculateEqualSplit (totalAmount : ℚ) (memberIds : List String) :
    List Split :=
  let perPerson : ℚ := jsFloor ((totalAmount * 100) / memberIds.length) / 100
  let remainder : ℚ :=
    jsRound ((totalAmount - perPerson * memberIds.length) * 100) / 100
  memberIds.mapIdx (fun index user_id =>
    { user_id := user_id
      amount := if index = 0 then perPerson + remainder else perPerson })

/-- `calculatePercentageSplit` (lines 52-66): fails unless the percentages
sum to 100 within 0.01, otherwise each amount is
`Math.round(totalAmount * percentage) / 100`. -/
def calculatePercentageSplit (totalAmount : ℚ)
    (splits : List CustomSplit) : Except String (List Split) :=
  let totalPercentage := splits.foldl (fun sum s => sum + s.percentage.getD 0) 0
  if |totalPercentage - 100| > 1/100 then
    .error "Percentages must sum to 100"
  else
    .ok (splits.map (fun split =>
      { user_id := split.user_id
        amount := jsRound (totalAmount * split.percentage.getD 0) / 100 }))

/-- `calculateExactSplit` (lines 71-85): fails unless the provided amounts
sum to `totalAmount` within 0.01, otherwise passes the inputs through
(missing amount treated as 0). -/
def calculateExactSplit (totalAmount : ℚ)
    (splits : List CustomSplit) : Except String (List Split) :=
  let totalSplitAmount := splits.foldl (fun sum s => sum + s.amount.getD 0) 0
  if |totalSplitAmount - totalAmount| > 1/100 then
    .error "Split amounts must equal total amount"
  else
    .ok (splits.map (fun split =>
      { user_id := split.user_id
        amount := split.amount.getD 0 }))

/-- `calculateSplits` (lines 6-30).  The split-type tag is a string at
runtime in TypeScript (the union type is erased), so it is embedded as
`String`, keeping the `default` branch of the `switch` reachable. -/
def calculateSplits (totalAmount : ℚ) (memberIds : List String)
    (splitType : String) (customSplits : Option (List CustomSplit) := none) :
    Except String (List Split) :=
  if memberIds.length = 0 then
    .error "At least one member is required"
  else if totalAmount ≤ 0 then
    .error "Amount must be positive"
  else if splitType = "equal" then
    .ok (calculateEqualSplit totalAmount memberIds)
  else if splitType = "percentage" then
    calculatePercentageSplit totalAmount (customSplits.getD [])
  else if splitType = "exact" then
    calculateExactSplit totalAmount (customSplits.getD [])
  else
    .error ("Unknown split type: " ++ splitType)

/-- Whether an `Except` computation raised an error. -/
def isError {ε α : Type} : Except ε α → Bool
  | .error _ => true
  | .ok _ => false

/-- `Map.get(k) || 0`: the value stored for `k`, or `0` when absent. -/
def mapGet (m : List (String × ℚ)) (k : String) : ℚ :=
  ((m.find? (fun p => p.1 = k)).map (fun p => p.2)).getD 0

/-- `Map.set(k, v)`: update a present key in place (its insertion position
is unchanged), append a fresh key at the end. -/
def mapSet (m : List (String × ℚ)) (k : String) (v : ℚ) :
    List (String × ℚ) :=
  if m.any (fun p => p.1 = k) then
    m.map (fun p => if p.1 = k then (k, v) else p)
  else
    m ++ [(k, v)]

/-- The expense loop body of `calculateGroupBalances` (lines 96-107):
credit the payer with the sum of the split amounts, then debit each
split's member by that split's amount. -/
def applyExpense (balances : List (String × ℚ)) (expense : Expense) :
    List (String × ℚ) :=
  let totalExpense := expense.splits.foldl (fun sum s => sum + s.amount) 0
  let balances :=
    mapSet balances expense.payer_id
      (mapGet balances expense.payer_id + totalExpense)
  expense.splits.foldl
    (fun b split => mapSet b split.user_id (mapGet b split.user_id - split.amount))
    balances

/-- The settlement loop body of `calculateGroupBalances` (lines 110-121):
the payer's balance is decreased and the payee's increased by the
settlement amount. -/
def applySettlement (balances : List (String × ℚ)) (s : Settlement) :
    List (String × ℚ) :=
  let balances := mapSet balances s.payer_id (mapGet balances s.payer_id - s.amount)
  mapSet balances s.payee_id (mapGet balances s.payee_id + s.amount)

/-- `calculateGroupBalances` (lines 90-123): fold all expenses, then all
settlements (when given), over the empty map. -/
def calculateGroupBalances (expenses : List Expense)
    (settlements : Option (List Settlement) := none) : List (String × ℚ) :=
  let balances := expenses.foldl applyExpense []
  match settlements with
  | some ss => ss.foldl applySettlement balances
  | none => balances

/-- Insert one entry into a list sorted descending by amount, keeping it
after every strictly larger entry (the stable position). -/
def insertDesc (x : String × ℚ) : List (String × ℚ) → List (String × ℚ)
  | [] => [x]
  | y :: ys => if y.2 > x.2 then y :: insertDesc x ys else x :: y :: ys

/-- Stable sort, descending by amount: the unique result of
`Array.prototype.sort` (stable per ECMAScript 2019) with comparator
`(a, b) => b.amount - a.amount`. -/
def sortDesc : List (String × ℚ) → List (String × ℚ)
  | [] => []
  | x :: xs => insertDesc x (sortDesc xs)

/-- The two-pointer loop of `calculateMinimumTransactions`
(lines 156-177).  The JavaScript loop mutates `creditors[i].amount` and
`debtors[j].amount` in place and advances `i`/`j` past entries whose
remainder drops below 0.01; here the remaining suffixes (with the current
head's updated amount) are the recursion state. -/
def sweep (creditors debtors : List (String × ℚ)) : List Transaction :=
  match creditors, debtors with
  | [], _ => []
  | _ :: _, [] => []
  | c :: cs, d :: ds =>
    let amount := min c.2 d.2
    let ts : List Transaction :=
      if amount > 1/100 then
        [{ from_ := d.1, to_ := c.1, amount := jsRound (amount * 100) / 100 }]
      else []
    let creditors' :=
      if c.2 - amount < 1/100 then cs else (c.1, c.2 - amount) :: cs
    let debtors' :=
      if d.2 - amount < 1/100 then ds else (d.1, d.2 - amount) :: ds
    ts ++ sweep creditors' debtors'
termination_by creditors.length + debtors.length
decreasing_by
  simp only [List.length_cons]
  rcases le_total c.2 d.2 with h | h
  · have hc : c.2 - min c.2 d.2 < 1/100 := by rw [min_eq_left h, sub_self]; norm_num
    rw [dif_pos hc]
    split_ifs <;> simp <;> omega
  · have hd : d.2 - min c.2 d.2 < 1/100 := by rw [min_eq_right h, sub_self]; norm_num
    rw [dif_pos hd]
    split_ifs <;> simp <;> omega

/-- `calculateMinimumTransactions` (lines 138-180): partition the map
into creditors (balance above 0.01) and debtors (below -0.01, stored as
the absolute owed amount), sort both descending, and run the greedy
two-pointer sweep.  The `forEach` visits entries in insertion order and
the sort is stable, so `filter`/stable insertion sort reproduce the
JavaScript lists exactly. -/
def calculateMinimumTransactions (balances : List (String × ℚ)) :
    List Transaction :=
  let creditors := balances.filter (fun p => p.2 > 1/100)
  let debtors :=
    (balances.filter (fun p => p.2 < -(1/100))).map (fun p => (p.1, -p.2))
  sweep (sortDesc creditors) (sortDesc debtors)

/-- Total positive balance of a map (the sum over its net creditors). -/
def totalPos (balances : List (String × ℚ)) : ℚ :=
  ((balances.filter (fun p => 0 < p.2)).map (fun p => p.2)).sum

/-- Magnitude of the total negative balance of a map. -/
def totalNeg (balances : List (String × ℚ)) : ℚ :=
  -((balances.filter (fun p => p.2 < 0)).map (fun p => p.2)).sum

/-- Sum of the amounts a member receives in a transaction list. -/
def recvBy (ts : List Transaction) (x : String) : ℚ :=
  ((ts.filter (fun t => t.to_ = x)).map (fun t => t.amount)).sum

/-- Sum of the amounts a member pays in a transaction list. -/
def paidBy (ts : List Transaction) (x : String) : ℚ :=
  ((ts.filter (fun t => t.from_ = x)).map (fun t => t.amount)).sum

/-- Applying one settling transaction to a balance map, as described in
claim C8: the payer's (`from_`) balance increases and the recipient's
(`to_`) decreases by the transaction amount. -/
def applyTransaction (balances : List (String × ℚ)) (t : Transaction) :
    List (String × ℚ) :=
  let balances := mapSet balances t.from_ (mapGet balances t.from_ + t.amount)
  mapSet balances t.to_ (mapGet balances t.to_ - t.amount)

/-- Applying a list of settling transactions to a balance map. -/
def applyTransactions (balances : List (String × ℚ))
    (ts : List Transaction) : List (String × ℚ) :=
  ts.foldl applyTransaction balances

/-- The keys of a balance map, in insertion order. -/
def keys (m : List (String × ℚ)) : List String := m.map (fun p => p.1)

/-- The sum of all balances stored in a map. -/
def sumValues (m : List (String × ℚ)) : ℚ := (m.map (fun p => p.2)).sum

/-- The part of an expense's splits owed by member `x`. -/
def splitSum (l : List Split) (x : String) : ℚ :=
  ((l.filter (fun s => s.user_id = x)).map (fun s => s.amount)).sum

/-- The sum of all split amounts of an expense. -/
def splitsTotal (l : List Split) : ℚ :=
  l.foldl (fun sum s => sum + s.amount) 0

end Splitwise

namespace Splitwise

theorem mapGet_nil (k : String) : mapGet [] k = 0 := rfl

theorem mapGet_cons (p : String × ℚ) (m : List (String × ℚ)) (k : String) :
    mapGet (p :: m) k = if p.1 = k then p.2 else mapGet m k := by
  by_cases h : p.1 = k <;> simp [mapGet, List.find?_cons, h]

theorem mapSet_nil (k : String) (v : ℚ) : mapSet [] k v = [(k, v)] := rfl

theorem mapSet_cons_of_ne (p : String × ℚ) (m : List (String × ℚ))
    (k : String) (v : ℚ) (h : p.1 ≠ k) :
    mapSet (p :: m) k v = p :: mapSet m k v := by
  by_cases hm : m.any (fun q => q.1 = k) <;> simp [mapSet, h, hm]

theorem map_id_of_not_key (m : List (String × ℚ)) (k : String) (v : ℚ)
    (h : ∀ p ∈ m, p.1 ≠ k) :
    m.map (fun p => if p.1 = k then (k, v) else p) = m := by
  induction m with
  | nil => rfl
  | cons p rest ih =>
      have hp := h p (by simp)
      simp only [List.map_cons, if_neg hp]
      rw [ih (fun q hq => h q (by simp [hq]))]

theorem mapSet_cons_self (p : String × ℚ) (m : List (String × ℚ))
    (k : String) (v : ℚ) (hp : p.1 = k) (h : ∀ q ∈ m, q.1 ≠ k) :
    mapSet (p :: m) k v = (k, v) :: m := by
  have hcond : ((p :: m).any (fun q => decide (q.1 = k))) = true := by
    simp [hp]
  simp only [mapSet, hcond, if_true, List.map_cons, if_pos hp]
  rw [map_id_of_not_key m k v h]

theorem not_key_of_nodup_cons (p : String × ℚ) (m : List (String × ℚ))
    (h : (keys (p :: m)).Nodup) (hp : p.1 = k) : ∀ q ∈ m, q.1 ≠ k := by
  intro q hq hc
  have h1 : p.1 ∉ keys m := by
    have := h
    simp only [keys, List.map_cons, List.nodup_cons] at this
    exact this.1
  exact h1 (hp ▸ hc ▸ List.mem_map.mpr ⟨q, hq, rfl⟩)

theorem keys_nodup_of_cons (p : String × ℚ) (m : List (String × ℚ))
    (h : (keys (p :: m)).Nodup) : (keys m).Nodup := by
  simp only [keys, List.map_cons, List.nodup_cons] at h
  exact h.2

theorem mapGet_mapSet_self (m : List (String × ℚ)) (k : String) (v : ℚ)
    (h : (keys m).Nodup) : mapGet (mapSet m k v) k = v := by
  induction m with
  | nil => simp [mapSet_nil, mapGet_cons]
  | cons p rest ih =>
      by_cases hp : p.1 = k
      · rw [mapSet_cons_self p rest k v hp (not_key_of_nodup_cons p rest h hp)]
        simp [mapGet_cons]
      · rw [mapSet_cons_of_ne p rest k v hp, mapGet_cons, if_neg hp]
        exact ih (keys_nodup_of_cons p rest h)

theorem mapGet_mapSet_of_ne (m : List (String × ℚ)) (k x : String) (v : ℚ)
    (hkx : k ≠ x) (h : (keys m).Nodup) :
    mapGet (mapSet m k v) x = mapGet m x := by
  induction m with
  | nil => simp [mapSet_nil, mapGet_cons, hkx, mapGet_nil]
  | cons p rest ih =>
      by_cases hp : p.1 = k
      · rw [mapSet_cons_self p rest k v hp (not_key_of_nodup_cons p rest h hp)]
        rw [mapGet_cons, mapGet_cons, if_neg (by simpa using hkx),
          if_neg (fun hc => hkx (hp ▸ hc))]
      · rw [mapSet_cons_of_ne p rest k v hp, mapGet_cons, mapGet_cons,
          ih (keys_nodup_of_cons p rest h)]

theorem keys_mapSet (m : List (String × ℚ)) (k : String) (v : ℚ)
    (h : (keys m).Nodup) :
    keys (mapSet m k v) =
      if k ∈ keys m then keys m else keys m ++ [k] := by
  induction m with
  | nil => simp [mapSet_nil, keys]
  | cons p rest ih =>
      by_cases hp : p.1 = k
      · rw [mapSet_cons_self p rest k v hp (not_key_of_nodup_cons p rest h hp)]
        have : k ∈ keys (p :: rest) := by simp [keys, hp.symm]
        rw [if_pos this]
        simp [keys, hp]
      · rw [mapSet_cons_of_ne p rest k v hp]
        have hk : keys (mapSet rest k v) =
            if k ∈ keys rest then keys rest else keys rest ++ [k] :=
          ih (keys_nodup_of_cons p rest h)
        by_cases hmem : k ∈ keys rest
        · have : k ∈ keys (p :: rest) := by simp [keys] at hmem ⊢; tauto
          rw [if_pos this]
          simp only [keys, List.map_cons] at hk ⊢
          rw [hk, if_pos (by simpa [keys] using hmem)]
        · have : k ∉ keys (p :: rest) := by
            simp only [keys, List.map_cons, List.mem_cons]
            push_neg
            exact ⟨fun hc => hp hc.symm, by simpa [keys] using hmem⟩
          rw [if_neg this]
          simp only [keys, List.map_cons] at hk ⊢
          rw [hk, if_neg (by simpa [keys] using hmem)]
          simp

theorem keys_mapSet_nodup (m : List (String × ℚ)) (k : String) (v : ℚ)
    (h : (keys m).Nodup) : (keys (mapSet m k v)).Nodup := by
  rw [keys_mapSet m k v h]
  by_cases hk : k ∈ keys m
  · simp [hk, h]
  · simp only [hk, if_false]
    rw [List.nodup_append]
    exact ⟨h, List.nodup_singleton k, by simp [hk]⟩

theorem mapGet_eq_zero_of_not_mem (m : List (String × ℚ)) (k : String)
    (h : k ∉ keys m) : mapGet m k = 0 := by
  induction m with
  | nil => rfl
  | cons p rest ih =>
      rw [mapGet_cons, if_neg (fun hc => h (by simp [keys, hc]))]
      exact ih (fun hc => h (by simp [keys] at hc ⊢; tauto))

theorem sumValues_mapSet (m : List (String × ℚ)) (k : String) (v : ℚ)
    (h : (keys m).Nodup) :
    sumValues (mapSet m k v) = sumValues m + v - mapGet m k := by
  induction m with
  | nil => simp [mapSet_nil, sumValues, mapGet_nil]
  | cons p rest ih =>
      by_cases hp : p.1 = k
      · rw [mapSet_cons_self p rest k v hp (not_key_of_nodup_cons p rest h hp)]
        rw [mapGet_cons, if_pos hp]
        simp only [sumValues, List.map_cons, List.sum_cons]
        ring
      · rw [mapSet_cons_of_ne p rest k v hp, mapGet_cons, if_neg hp]
        simp only [sumValues, List.map_cons, List.sum_cons] at ih ⊢
        rw [ih (keys_nodup_of_cons p rest h)]
        ring

theorem foldl_add_map {α : Type} (f : α → ℚ) (l : List α) (a : ℚ) :
    l.foldl (fun sum x => sum + f x) a = a + (l.map f).sum := by
  induction l generalizing a with
  | nil => simp
  | cons x xs ih => simp [ih]; ring

theorem splitsTotal_eq_sum (l : List Split) :
    splitsTotal l = (l.map (fun s => s.amount)).sum := by
  simpa using foldl_add_map (fun s => s.amount) l 0

theorem keys_nodup_foldl_debit (l : List Split) (b : List (String × ℚ))
    (h : (keys b).Nodup) :
    (keys (l.foldl
      (fun b split =>
        mapSet b split.user_id (mapGet b split.user_id - split.amount)) b)).Nodup := by
  induction l generalizing b with
  | nil => simpa
  | cons s rest ih =>
      simp only [List.foldl_cons]
      exact ih _ (keys_mapSet_nodup _ _ _ h)

theorem mapGet_foldl_debit (l : List Split) (b : List (String × ℚ))
    (x : String) (h : (keys b).Nodup) :
    mapGet (l.foldl
      (fun b split =>
        mapSet b split.user_id (mapGet b split.user_id - split.amount)) b) x =
      mapGet b x - splitSum l x := by
  induction l generalizing b with
  | nil => simp [splitSum]
  | cons s rest ih =>
      simp only [List.foldl_cons]
      rw [ih _ (keys_mapSet_nodup _ _ _ h)]
      by_cases hs : s.user_id = x
      · rw [hs, mapGet_mapSet_self _ _ _ h]
        simp only [splitSum, List.filter_cons, hs, decide_true_eq_true]
        simp [hs]
        ring
      · rw [mapGet_mapSet_of_ne _ _ _ _ hs h]
        simp only [splitSum, List.filter_cons]
        simp [hs]

theorem sumValues_foldl_debit (l : List Split) (b : List (String × ℚ))
    (h : (keys b).Nodup) :
    sumValues (l.foldl
      (fun b split =>
        mapSet b split.user_id (mapGet b split.user_id - split.amount)) b) =
      sumValues b - (l.map (fun s => s.amount)).sum := by
  induction l generalizing b with
  | nil => simp
  | cons s rest ih =>
      simp only [List.foldl_cons]
      rw [ih _ (keys_mapSet_nodup _ _ _ h), sumValues_mapSet _ _ _ h]
      simp
      ring

theorem keys_nodup_applyExpense (b : List (String × ℚ)) (e : Expense)
    (h : (keys b).Nodup) : (keys (applyExpense b e)).Nodup := by
  simp only [applyExpense]
  exact keys_nodup_foldl_debit _ _ (keys_mapSet_nodup _ _ _ h)

theorem mapGet_applyExpense (b : List (String × ℚ)) (e : Expense)
    (x : String) (h : (keys b).Nodup) :
    mapGet (applyExpense b e) x =
      mapGet b x + (if e.payer_id = x then splitsTotal e.splits else 0)
        - splitSum e.splits x := by
  simp only [applyExpense]
  rw [mapGet_foldl_debit _ _ _ (keys_mapSet_nodup _ _ _ h)]
  split_ifs with hp
  · rw [hp, mapGet_mapSet_self _ _ _ h]
    simp only [splitsTotal]
  · rw [mapGet_mapSet_of_ne _ _ _ _ hp h]
    ring

theorem sumValues_applyExpense (b : List (String × ℚ)) (e : Expense)
    (h : (keys b).Nodup) : sumValues (applyExpense b e) = sumValues b := by
  simp only [applyExpense]
  rw [sumValues_foldl_debit _ _ (keys_mapSet_nodup _ _ _ h),
    sumValues_mapSet _ _ _ h]
  have hfold : List.foldl (fun sum s => sum + s.amount) 0 e.splits =
      (e.splits.map (fun s => s.amount)).sum := by
    simpa [splitsTotal] using splitsTotal_eq_sum e.splits
  rw [hfold]
  ring

theorem keys_nodup_applySettlement (b : List (String × ℚ)) (s : Settlement)
    (h : (keys b).Nodup) : (keys (applySettlement b s)).Nodup := by
  simp only [applySettlement]
  exact keys_mapSet_nodup _ _ _ (keys_mapSet_nodup _ _ _ h)

theorem mapGet_applySettlement (b : List (String × ℚ)) (s : Settlement)
    (x : String) (h : (keys b).Nodup) :
    mapGet (applySettlement b s) x =
      mapGet b x - (if s.payer_id = x then s.amount else 0)
        + (if s.payee_id = x then s.amount else 0) := by
  simp only [applySettlement]
  have h1 : (keys (mapSet b s.payer_id (mapGet b s.payer_id - s.amount))).Nodup :=
    keys_mapSet_nodup _ _ _ h
  split_ifs with hp hq hq
  · rw [hq, mapGet_mapSet_self _ _ _ h1, hp, mapGet_mapSet_self _ _ _ h]
    try ring
  · rw [mapGet_mapSet_of_ne _ _ _ _ hq h1, hp, mapGet_mapSet_self _ _ _ h]
    try ring
  · rw [hq, mapGet_mapSet_self _ _ _ h1, mapGet_mapSet_of_ne _ _ _ _ hp h]
    try ring
  · rw [mapGet_mapSet_of_ne _ _ _ _ hq h1, mapGet_mapSet_of_ne _ _ _ _ hp h]
    try ring

theorem sumValues_applySettlement (b : List (String × ℚ)) (s : Settlement)
    (h : (keys b).Nodup) : sumValues (applySettlement b s) = sumValues b := by
  simp only [applySettlement]
  rw [sumValues_mapSet _ _ _ (keys_mapSet_nodup _ _ _ h),
    sumValues_mapSet _ _ _ h]
  by_cases hpq : s.payer_id = s.payee_id
  · rw [hpq, mapGet_mapSet_self _ _ _ h]
    ring
  · rw [mapGet_mapSet_of_ne _ _ _ _ hpq h]
    ring

theorem keys_nodup_foldl_applyExpense (es : List Expense)
    (b : List (String × ℚ)) (h : (keys b).Nodup) :
    (keys (es.foldl applyExpense b)).Nodup := by
  induction es generalizing b with
  | nil => simpa
  | cons e rest ih =>
      simp only [List.foldl_cons]
      exact ih _ (keys_nodup_applyExpense _ _ h)

theorem sumValues_foldl_applyExpense (es : List Expense)
    (b : List (String × ℚ)) (h : (keys b).Nodup) :
    sumValues (es.foldl applyExpense b) = sumValues b := by
  induction es generalizing b with
  | nil => rfl
  | cons e rest ih =>
      simp only [List.foldl_cons]
      rw [ih _ (keys_nodup_applyExpense _ _ h), sumValues_applyExpense _ _ h]

theorem keys_nodup_foldl_applySettlement (ss : List Settlement)
    (b : List (String × ℚ)) (h : (keys b).Nodup) :
    (keys (ss.foldl applySettlement b)).Nodup := by
  induction ss generalizing b with
  | nil => simpa
  | cons s rest ih =>
      simp only [List.foldl_cons]
      exact ih _ (keys_nodup_applySettlement _ _ h)

theorem sumValues_foldl_applySettlement (ss : List Settlement)
    (b : List (String × ℚ)) (h : (keys b).Nodup) :
    sumValues (ss.foldl applySettlement b) = sumValues b := by
  induction ss generalizing b with
  | nil => rfl
  | cons s rest ih =>
      simp only [List.foldl_cons]
      rw [ih _ (keys_nodup_applySettlement _ _ h), sumValues_applySettlement _ _ h]

theorem keys_nodup_calculateGroupBalances (es : List Expense)
    (ss : Option (List Settlement)) :
    (keys (calculateGroupBalances es ss)).Nodup := by
  cases ss with
  | none =>
      simpa [calculateGroupBalances] using
        keys_nodup_foldl_applyExpense es [] (by simp [keys])
  | some l =>
      simpa [calculateGroupBalances] using
        keys_nodup_foldl_applySettlement l _
          (keys_nodup_foldl_applyExpense es [] (by simp [keys]))

/-- Claim C1 (code bug): at the spec's own scenario -- one expense where
`u1` pays 100 split 50/50 between `u1` and `u2`, followed by a settlement
with payer `u2`, payee `u1`, amount 50 -- `calculateGroupBalances` yields
`u1 = +100` and `u2 = -100` instead of the claimed zero balances: the
settlement moves both parties away from zero because the code subtracts
from the settlement payer and adds to the payee. -/
theorem claim_C1_settlement_moves_away_from_zero :
    calculateGroupBalances [⟨"u1", [⟨"u1", 50⟩, ⟨"u2", 50⟩]⟩]
      (some [⟨"u2", "u1", 50⟩]) = [("u1", 100), ("u2", -100)] := by
  norm_num +decide [calculateGroupBalances, applyExpense, applySettlement,
    mapGet, mapSet, List.find?, List.any]

/-- Claim C5: each expense credits the payer with the sum of that
expense's split amounts and debits every split member by their split
amount; processing one more expense in `calculateGroupBalances` is
exactly one `applyExpense` step; and the single 50/50 expense paid by
`u1` yields balances `u1 = +50`, `u2 = -50`. -/
theorem claim_C5_expense_effect :
    (∀ (b : List (String × ℚ)) (e : Expense) (x : String),
      (keys b).Nodup →
        mapGet (applyExpense b e) x =
          mapGet b x + (if e.payer_id = x then splitsTotal e.splits else 0)
            - splitSum e.splits x)
    ∧ (∀ (es : List Expense) (e : Expense),
        calculateGroupBalances (es ++ [e]) none =
          applyExpense (calculateGroupBalances es none) e)
    ∧ mapGet (calculateGroupBalances [⟨"u1", [⟨"u1", 50⟩, ⟨"u2", 50⟩]⟩] none)
        "u1" = 50
    ∧ mapGet (calculateGroupBalances [⟨"u1", [⟨"u1", 50⟩, ⟨"u2", 50⟩]⟩] none)
        "u2" = -50 := by
  refine ⟨fun b e x h => mapGet_applyExpense b e x h, fun es e => ?_, ?_, ?_⟩
  · simp [calculateGroupBalances, List.foldl_append]
  · norm_num +decide [calculateGroupBalances, applyExpense, mapGet, mapSet,
      List.find?, List.any]
  · norm_num +decide [calculateGroupBalances, applyExpense, mapGet, mapSet,
      List.find?, List.any]

/-- Witness for C5 at a concrete input: the payer not occurring in the
splits is credited the full split total. -/
theorem claim_C5_expense_effect_witness :
    (keys [("u3", (5 : ℚ))]).Nodup ∧
    mapGet (applyExpense [("u3", 5)] ⟨"u1", [⟨"u2", 7⟩]⟩) "u1" =
      mapGet [("u3", 5)] "u1"
        + (if "u1" = "u1" then splitsTotal [⟨"u2", 7⟩] else 0)
        - splitSum [⟨"u2", 7⟩] "u1" :=
  ⟨by simp [keys], claim_C5_expense_effect.1 [("u3", 5)] ⟨"u1", [⟨"u2", 7⟩]⟩
    "u1" (by simp [keys])⟩

/-- Claim C10: the balances produced by `calculateGroupBalances` always
sum to exactly zero, for any expenses and settlements. -/
theorem claim_C10_balances_sum_to_zero (es : List Expense)
    (ss : Option (List Settlement)) :
    sumValues (calculateGroupBalances es ss) = 0 := by
  have h0 : (keys ([] : List (String × ℚ))).Nodup := by simp [keys]
  cases ss with
  | none =>
      simpa [calculateGroupBalances] using
        sumValues_foldl_applyExpense es [] h0
  | some l =>
      have h1 := keys_nodup_foldl_applyExpense es [] h0
      have h2 := sumValues_foldl_applySettlement l _ h1
      have h3 := sumValues_foldl_applyExpense es [] h0
      simpa [calculateGroupBalances, h3] using h2

theorem mapIdx_const {α β : Type} (g : α → β) :
    ∀ l : List α, (l.mapIdx fun _ a => g a) = l.map g := by
  intro l
  induction l with
  | nil => rfl
  | cons a rest ih =>
      rw [List.mapIdx_cons, List.map_cons]
      exact congrArg (List.cons (g a)) ih

theorem mapIdx_firstExtra (A B : ℚ) (a : String) (rest : List String) :
    ((a :: rest).mapIdx fun i id => Split.mk id (if i = 0 then A else B)) =
      Split.mk a A :: rest.map (fun id => Split.mk id B) := by
  rw [List.mapIdx_cons]
  have h1 : (rest.mapIdx fun i =>
      (fun i id => Split.mk id (if i = 0 then A else B)) (i + 1)) =
      rest.map (fun id => Split.mk id B) := by
    have h2 : (fun (i : ℕ) =>
        (fun i id => Split.mk id (if i = 0 then A else B)) (i + 1)) =
        (fun (_ : ℕ) (id : String) => Split.mk id B) := by
      funext i id
      simp
    rw [h2, mapIdx_const]
  rw [h1]
  simp

theorem sum_amounts_map_const (B : ℚ) (l : List String) :
    ((l.map (fun id => Split.mk id B)).map (fun s => s.amount)).sum =
      B * l.length := by
  induction l with
  | nil => simp
  | cons a rest ih =>
      simp only [List.map_cons, List.sum_cons, ih, List.length_cons]
      push_cast
      ring

theorem floor_cents_div (c n : ℕ) :
    jsFloor ((c : ℚ) / 100 * 100 / (n : ℚ)) = ((c / n : ℕ) : ℚ) := by
  have h1 : (c : ℚ) / 100 * 100 = (c : ℚ) := by
    rw [div_mul_cancel₀]
    norm_num
  rw [h1, jsFloor, Rat.floor_natCast_div_natCast]
  norm_cast

theorem rem_cents (c n : ℕ) :
    ((c : ℚ) / 100 - ((c / n : ℕ) : ℚ) / 100 * (n : ℚ)) * 100 =
      ((c : ℚ) - ((c / n : ℕ) : ℚ) * (n : ℚ)) := by
  ring

theorem div_add_mod_rat (c n : ℕ) :
    (n : ℚ) * ((c / n : ℕ) : ℚ) + ((c % n : ℕ) : ℚ) = (c : ℚ) := by
  exact_mod_cast congrArg (fun k : ℕ => (k : ℚ)) (Nat.div_add_mod c n)

theorem jsRound_natCast (m : ℕ) : jsRound ((m : ℕ) : ℚ) = (m : ℚ) := by
  rw [jsRound, round_natCast]
  norm_cast

/-- Claim C2: for a positive whole-cent total (`c` cents) and a non-empty
member list, the equal split is the floored per-person share for every
member except the first, who additionally absorbs the rounded remainder,
and the split amounts sum to the total exactly. -/
theorem claim_C2_equal_split (c : ℕ) (hc : 0 < c) (memberIds : List String)
    (hm : memberIds ≠ []) :
    calculateSplits ((c : ℚ) / 100) memberIds "equal" none =
      .ok (calculateEqualSplit ((c : ℚ) / 100) memberIds)
    ∧ calculateEqualSplit ((c : ℚ) / 100) memberIds =
        memberIds.mapIdx (fun i user_id =>
          ⟨user_id,
            if i = 0 then
              jsFloor ((c : ℚ) / 100 * 100 / memberIds.length) / 100
                + jsRound (((c : ℚ) / 100
                    - jsFloor ((c : ℚ) / 100 * 100 / memberIds.length) / 100
                      * memberIds.length) * 100) / 100
            else jsFloor ((c : ℚ) / 100 * 100 / memberIds.length) / 100⟩)
    ∧ ((calculateEqualSplit ((c : ℚ) / 100) memberIds).map
        (fun s => s.amount)).sum = (c : ℚ) / 100 := by
  have h1 : ¬(memberIds.length = 0) := by
    simpa [List.length_eq_zero] using hm
  have hc' : (0 : ℚ) < (c : ℚ) / 100 := by
    have : (0 : ℚ) < (c : ℚ) := by exact_mod_cast hc
    positivity
  have h2 : ¬((c : ℚ) / 100 ≤ 0) := not_le.mpr hc'
  refine ⟨?_, rfl, ?_⟩
  · simp [calculateSplits, if_neg h1, if_neg h2, hm]
  · obtain ⟨a, rest, rfl⟩ : ∃ a rest, memberIds = a :: rest := by
      cases memberIds with
      | nil => exact absurd rfl hm
      | cons a rest => exact ⟨a, rest, rfl⟩
    simp only [calculateEqualSplit]
    rw [mapIdx_firstExtra]
    simp only [List.map_cons, List.sum_cons, sum_amounts_map_const]
    rw [floor_cents_div]
    have hq := div_add_mod_rat c ((a :: rest).length)
    have hrem : ((c : ℚ) / 100
        - ((c / (a :: rest).length : ℕ) : ℚ) / 100 * ((a :: rest).length : ℚ))
          * 100 = ((c % (a :: rest).length : ℕ) : ℚ) := by
      rw [rem_cents]
      linarith [hq]
    rw [hrem, jsRound_natCast]
    simp only [List.length_cons] at hq ⊢
    push_cast at hq ⊢
    linear_combination (1 / 100 : ℚ) * hq

/-- Witness for C2: 100.00 split equally among three members sums back
to 100.00 exactly. -/
theorem claim_C2_equal_split_witness :
    0 < (10000 : ℕ) ∧ (["a", "b", "c"] : List String) ≠ [] ∧
    ((calculateEqualSplit (((10000 : ℕ) : ℚ) / 100) ["a", "b", "c"]).map
      (fun s => s.amount)).sum = ((10000 : ℕ) : ℚ) / 100 :=
  ⟨by norm_num, by simp,
    (claim_C2_equal_split 10000 (by norm_num) ["a", "b", "c"] (by simp)).2.2⟩

/-- Claim C4: with percentages summing to 100 within 0.01, every
percentage split amount is `Math.round(total * percentage) / 100`
(multiply first, round once, then divide), and the 60/40 example of the
spec holds. -/
theorem claim_C4_percentage_split (t : ℚ) (ht : 0 < t)
    (memberIds : List String) (hm : memberIds ≠ [])
    (splits : List CustomSplit)
    (hsum : |(splits.map (fun s => s.percentage.getD 0)).sum - 100| ≤ 1/100) :
    calculateSplits t memberIds "percentage" (some splits) =
      .ok (splits.map (fun split =>
        ⟨split.user_id, jsRound (t * split.percentage.getD 0) / 100⟩))
    ∧ calculateSplits 100 ["a", "b"] "percentage"
        (some [⟨"a", none, some 60⟩, ⟨"b", none, some 40⟩]) =
        .ok [⟨"a", 60⟩, ⟨"b", 40⟩] := by
  constructor
  · have h1 : ¬(memberIds.length = 0) := by
      simpa [List.length_eq_zero] using hm
    have h2 : ¬(t ≤ 0) := not_le.mpr ht
    have hf : splits.foldl (fun sum s => sum + s.percentage.getD 0) 0 =
        (splits.map (fun s => s.percentage.getD 0)).sum := by
      simpa using foldl_add_map (fun s : CustomSplit => s.percentage.getD 0)
        splits 0
    have h4 : ¬(|splits.foldl (fun sum s => sum + s.percentage.getD 0) 0
        - 100| > 1/100) := by
      rw [hf]
      exact not_lt.mpr hsum
    simp +decide [calculateSplits, calculatePercentageSplit, h1, h2, h4]
    rw [hf]
    linarith [hsum]
  · norm_num +decide [calculateSplits, calculatePercentageSplit, jsRound,
      round_eq, Int.floor_eq_iff]

/-- Witness for C4 at the spec's example input. -/
theorem claim_C4_percentage_split_witness :
    (0 : ℚ) < 100 ∧ (["a", "b"] : List String) ≠ [] ∧
    |(([⟨"a", none, some 60⟩, ⟨"b", none, some 40⟩] : List CustomSplit).map
      (fun s => s.percentage.getD 0)).sum - 100| ≤ 1/100 ∧
    calculateSplits 100 ["a", "b"] "percentage"
      (some [⟨"a", none, some 60⟩, ⟨"b", none, some 40⟩]) =
      .ok (([⟨"a", none, some 60⟩, ⟨"b", none, some 40⟩] : List CustomSplit).map
        (fun split =>
          ⟨split.user_id, jsRound (100 * split.percentage.getD 0) / 100⟩)) :=
  ⟨by norm_num, by simp, by norm_num,
    (claim_C4_percentage_split 100 (by norm_num) ["a", "b"] (by simp)
      [⟨"a", none, some 60⟩, ⟨"b", none, some 40⟩] (by norm_num)).1⟩

/-- Claim C9: with exact amounts summing to the total within 0.01, the
exact split passes the custom inputs through unchanged (same order, one
output per input, missing amount treated as 0) without consulting the
participant list, and the 70/30 example of the spec holds. -/
theorem claim_C9_exact_split (t : ℚ) (ht : 0 < t)
    (memberIds : List String) (hm : memberIds ≠ [])
    (splits : List CustomSplit)
    (hsum : |(splits.map (fun s => s.amount.getD 0)).sum - t| ≤ 1/100) :
    calculateSplits t memberIds "exact" (some splits) =
      .ok (splits.map (fun split => ⟨split.user_id, split.amount.getD 0⟩))
    ∧ calculateSplits 100 ["a", "b"] "exact"
        (some [⟨"a", some 70, none⟩, ⟨"b", some 30, none⟩]) =
        .ok [⟨"a", 70⟩, ⟨"b", 30⟩] := by
  constructor
  · have h1 : ¬(memberIds.length = 0) := by
      simpa [List.length_eq_zero] using hm
    have h2 : ¬(t ≤ 0) := not_le.mpr ht
    have hf : splits.foldl (fun sum s => sum + s.amount.getD 0) 0 =
        (splits.map (fun s => s.amount.getD 0)).sum := by
      simpa using foldl_add_map (fun s : CustomSplit => s.amount.getD 0)
        splits 0
    have h4 : ¬(|splits.foldl (fun sum s => sum + s.amount.getD 0) 0
        - t| > 1/100) := by
      rw [hf]
      exact not_lt.mpr hsum
    simp +decide [calculateSplits, calculateExactSplit, h1, h2, h4]
    rw [hf]
    linarith [hsum]
  · norm_num +decide [calculateSplits, calculateExactSplit]

/-- Witness for C9 at the spec's example input: members of the split need
not appear in the participant list. -/
theorem claim_C9_exact_split_witness :
    (0 : ℚ) < 100 ∧ (["x", "y"] : List String) ≠ [] ∧
    |(([⟨"a", some 70, none⟩, ⟨"b", some 30, none⟩] : List CustomSplit).map
      (fun s => s.amount.getD 0)).sum - 100| ≤ 1/100 ∧
    calculateSplits 100 ["x", "y"] "exact"
      (some [⟨"a", some 70, none⟩, ⟨"b", some 30, none⟩]) =
      .ok (([⟨"a", some 70, none⟩, ⟨"b", some 30, none⟩] : List CustomSplit).map
        (fun split => ⟨split.user_id, split.amount.getD 0⟩)) :=
  ⟨by norm_num, by simp, by norm_num,
    (claim_C9_exact_split 100 (by norm_num) ["x", "y"] (by simp)
      [⟨"a", some 70, none⟩, ⟨"b", some 30, none⟩] (by norm_num)).1⟩

/-- Claim C3: `calculateSplits` raises exactly when the participant list
is empty, the total is non-positive, the policy is unknown, the
percentages miss 100 by more than 0.01, or the exact amounts miss the
total by more than 0.01; the aggregator and the simplifier are total
functions that produce a result for every input. -/
theorem claim_C3_error_conditions :
    (∀ (t : ℚ) (memberIds : List String) (splitType : String)
        (customSplits : Option (List CustomSplit)),
      isError (calculateSplits t memberIds splitType customSplits) = true ↔
        (memberIds = [] ∨ t ≤ 0 ∨
          (splitType ≠ "equal" ∧ splitType ≠ "percentage" ∧
            splitType ≠ "exact") ∨
          (splitType = "percentage" ∧
            |((customSplits.getD []).map
              (fun s => s.percentage.getD 0)).sum - 100| > 1/100) ∨
          (splitType = "exact" ∧
            |((customSplits.getD []).map
              (fun s => s.amount.getD 0)).sum - t| > 1/100)))
    ∧ (∀ (es : List Expense) (ss : Option (List Settlement)),
        ∃ m, calculateGroupBalances es ss = m)
    ∧ (∀ b : List (String × ℚ), ∃ ts, calculateMinimumTransactions b = ts) := by
  refine ⟨?_, fun es ss => ⟨_, rfl⟩, fun b => ⟨_, rfl⟩⟩
  intro t memberIds st cs
  have hfp : (cs.getD []).foldl (fun sum s => sum + s.percentage.getD 0) 0 =
      ((cs.getD []).map (fun s => s.percentage.getD 0)).sum := by
    simpa using foldl_add_map (fun s : CustomSplit => s.percentage.getD 0)
      (cs.getD []) 0
  have hfa : (cs.getD []).foldl (fun sum s => sum + s.amount.getD 0) 0 =
      ((cs.getD []).map (fun s => s.amount.getD 0)).sum := by
    simpa using foldl_add_map (fun s : CustomSplit => s.amount.getD 0)
      (cs.getD []) 0
  by_cases h1 : memberIds.length = 0
  · simp [calculateSplits, h1, isError, List.length_eq_zero.mp h1]
  · have h1' : ¬memberIds = [] := by
      simpa [List.length_eq_zero] using h1
    by_cases h2 : t ≤ 0
    · simp [calculateSplits, h1, h2, isError, h1']
    · by_cases he : st = "equal"
      · subst he
        simp +decide [calculateSplits, h1, h2, isError, h1']
      · by_cases hp : st = "percentage"
        · subst hp
          by_cases h4 : |((cs.getD []).map
              (fun s => s.percentage.getD 0)).sum - 100| > 1/100
          · have h4i : (100 : ℚ)⁻¹ < |((cs.getD []).map
                (fun s => s.percentage.getD 0)).sum - 100| := by
              rw [← one_div]
              exact h4
            simp +decide [calculateSplits, calculatePercentageSplit, h1, h2,
              isError, h1', hfp, h4, h4i]
          · have h4i : ¬((100 : ℚ)⁻¹ < |((cs.getD []).map
                (fun s => s.percentage.getD 0)).sum - 100|) := by
              rw [← one_div]
              exact h4
            simp +decide [calculateSplits, calculatePercentageSplit, h1, h2,
              isError, h1', hfp, h4, h4i]
        · by_cases hx : st = "exact"
          · subst hx
            by_cases h5 : |((cs.getD []).map
                (fun s => s.amount.getD 0)).sum - t| > 1/100
            · have h5i : (100 : ℚ)⁻¹ < |((cs.getD []).map
                  (fun s => s.amount.getD 0)).sum - t| := by
                rw [← one_div]
                exact h5
              simp +decide [calculateSplits, calculateExactSplit, h1, h2,
                isError, h1', hfa, h5, h5i]
            · have h5i : ¬((100 : ℚ)⁻¹ < |((cs.getD []).map
                  (fun s => s.amount.getD 0)).sum - t|) := by
                rw [← one_div]
                exact h5
              simp +decide [calculateSplits, calculateExactSplit, h1, h2,
                isError, h1', hfa, h5, h5i]
          · simp [calculateSplits, h1, h2, isError, h1', he, hp, hx]

/-- The member identifiers of a creditor/debtor list, in order. -/
def ids (l : List (String × ℚ)) : List String := l.map (fun p => p.1)

/-- A rational that is an integer multiple of 0.02 (an even number of
cents). -/
def even2 (q : ℚ) : Prop := ∃ k : ℤ, q = k / 50

theorem even2_sub {q r : ℚ} (hq : even2 q) (hr : even2 r) :
    even2 (q - r) := by
  obtain ⟨k, hk⟩ := hq
  obtain ⟨j, hj⟩ := hr
  exact ⟨k - j, by rw [hk, hj]; push_cast; ring⟩

theorem even2_tol_le {q : ℚ} (hq : even2 q) (h : 0 < q) : 1/50 ≤ q := by
  obtain ⟨k, hk⟩ := hq
  subst hk
  have hk1 : (1 : ℤ) ≤ k := by
    by_contra hc
    push_neg at hc
    have : (k : ℚ) ≤ 0 := by
      exact_mod_cast Int.lt_add_one_iff.mp (by omega)
    nlinarith
  have : (1 : ℚ) ≤ (k : ℚ) := by exact_mod_cast hk1
  linarith

theorem tol_lt_min {q r : ℚ} (hq : 1/50 ≤ q) (hr : 1/50 ≤ r) :
    1/100 < min q r :=
  lt_of_lt_of_le (by norm_num) (le_min hq hr)

theorem resid_not_lt {q r : ℚ} (hq : even2 q) (hr : even2 r) (hlt : r < q) :
    ¬(q - min q r < 1/100) := by
  rw [min_eq_right hlt.le]
  have h1 : 1/50 ≤ q - r :=
    even2_tol_le (even2_sub hq hr) (by linarith)
  linarith

theorem jsRound_min_even2 {q r : ℚ} (hq : even2 q) (hr : even2 r) :
    jsRound (min q r * 100) / 100 = min q r := by
  obtain ⟨k, hk⟩ := hq
  obtain ⟨j, hj⟩ := hr
  subst hk
  subst hj
  have hmin : min ((k : ℚ) / 50) ((j : ℚ) / 50) = ((min k j : ℤ) : ℚ) / 50 := by
    rcases le_total k j with h | h
    · rw [min_eq_left (by
        have : (k : ℚ) ≤ (j : ℚ) := by exact_mod_cast h
        linarith), min_eq_left h]
    · rw [min_eq_right (by
        have : (j : ℚ) ≤ (k : ℚ) := by exact_mod_cast h
        linarith), min_eq_right h]
  rw [hmin]
  have h2 : ((min k j : ℤ) : ℚ) / 50 * 100 = ((2 * min k j : ℤ) : ℚ) := by
    push_cast
    ring
  rw [h2, jsRound, round_intCast]
  push_cast
  ring

theorem recvBy_nil (x : String) : recvBy [] x = 0 := rfl

theorem paidBy_nil (x : String) : paidBy [] x = 0 := rfl

theorem recvBy_cons (t : Transaction) (ts : List Transaction) (x : String) :
    recvBy (t :: ts) x = (if t.to_ = x then t.amount else 0) + recvBy ts x := by
  by_cases h : t.to_ = x <;> simp [recvBy, List.filter_cons, h]

theorem paidBy_cons (t : Transaction) (ts : List Transaction) (x : String) :
    paidBy (t :: ts) x =
      (if t.from_ = x then t.amount else 0) + paidBy ts x := by
  by_cases h : t.from_ = x <;> simp [paidBy, List.filter_cons, h]

theorem recvBy_eq_zero (ts : List Transaction) (x : String)
    (h : ∀ t ∈ ts, t.to_ ≠ x) : recvBy ts x = 0 := by
  induction ts with
  | nil => rfl
  | cons t rest ih =>
      rw [recvBy_cons, if_neg (h t (by simp)),
        ih (fun u hu => h u (by simp [hu]))]
      ring

theorem paidBy_eq_zero (ts : List Transaction) (x : String)
    (h : ∀ t ∈ ts, t.from_ ≠ x) : paidBy ts x = 0 := by
  induction ts with
  | nil => rfl
  | cons t rest ih =>
      rw [paidBy_cons, if_neg (h t (by simp)),
        ih (fun u hu => h u (by simp [hu]))]
      ring

theorem sweep_nil_left (ds : List (String × ℚ)) : sweep [] ds = [] := by
  simp [sweep]

theorem sweep_nil_right (cs : List (String × ℚ)) : sweep cs [] = [] := by
  cases cs <;> simp [sweep]

theorem sweep_mem_ids : ∀ (cs ds : List (String × ℚ)) (t : Transaction),
    t ∈ sweep cs ds → t.to_ ∈ ids cs ∧ t.from_ ∈ ids ds := by
  intro cs ds
  induction cs, ds using sweep.induct with
  | case1 ds => simp [sweep]
  | case2 c cs => simp [sweep]
  | case3 c cs d ds amount creditors' debtors' ih =>
      intro t ht
      rw [sweep] at ht
      rcases List.mem_append.mp ht with h1 | h2
      · split_ifs at h1
        · simp only [List.mem_singleton] at h1
          subst h1
          exact ⟨by simp [ids], by simp [ids]⟩
        · simp at h1
      · have hmem := ih t h2
        unfold creditors' debtors' amount at hmem
        refine ⟨?_, ?_⟩
        · rcases hmem with ⟨h3, h4⟩
          split_ifs at h3 <;> simp [ids] at h3 ⊢ <;> tauto
        · rcases hmem with ⟨h3, h4⟩
          split_ifs at h4 <;> simp [ids] at h4 ⊢ <;> tauto

theorem recvBy_sweep_zero (cs ds : List (String × ℚ)) (x : String)
    (h : x ∉ ids cs) : recvBy (sweep cs ds) x = 0 :=
  recvBy_eq_zero _ _ (fun t ht hc => h (hc ▸ (sweep_mem_ids cs ds t ht).1))

theorem paidBy_sweep_zero (cs ds : List (String × ℚ)) (x : String)
    (h : x ∉ ids ds) : paidBy (sweep cs ds) x = 0 :=
  paidBy_eq_zero _ _ (fun t ht hc => h (hc ▸ (sweep_mem_ids cs ds t ht).2))

theorem sweep_length_le : ∀ (cs ds : List (String × ℚ)),
    (sweep cs ds).length ≤ cs.length + ds.length - 1 := by
  intro cs ds
  induction cs, ds using sweep.induct with
  | case1 ds => simp [sweep]
  | case2 c cs => simp [sweep]
  | case3 c cs d ds amount creditors' debtors' ih =>
      rw [sweep]
      unfold creditors' debtors' amount at ih
      simp only [dite_eq_ite] at ih
      have hstep :
          (if c.2 - min c.2 d.2 < 1/100 then cs
            else (c.1, c.2 - min c.2 d.2) :: cs).length +
          (if d.2 - min c.2 d.2 < 1/100 then ds
            else (d.1, d.2 - min c.2 d.2) :: ds).length ≤
            cs.length + ds.length + 1 := by
        rcases le_total c.2 d.2 with h | h
        · have hc : c.2 - min c.2 d.2 < 1/100 := by
            rw [min_eq_left h, sub_self]
            norm_num
          rw [if_pos hc]
          split_ifs <;> simp <;> omega
        · have hd : d.2 - min c.2 d.2 < 1/100 := by
            rw [min_eq_right h, sub_self]
            norm_num
          rw [if_pos hd]
          split_ifs <;> simp <;> omega
      have hts : (if min c.2 d.2 > 1/100 then
          [({ from_ := d.1, to_ := c.1,
              amount := jsRound (min c.2 d.2 * 100) / 100 } : Transaction)]
          else []).length ≤ 1 := by
        split_ifs <;> simp
      rw [List.length_append]
      simp only [List.length_cons]
      omega

theorem insertDesc_perm (x : String × ℚ) (l : List (String × ℚ)) :
    (insertDesc x l).Perm (x :: l) := by
  induction l with
  | nil => simp [insertDesc]
  | cons y ys ih =>
      rw [insertDesc]
      split_ifs with h
      · exact ((ih.cons y).trans (List.Perm.swap x y ys))
      · exact List.Perm.refl _

theorem sortDesc_perm (l : List (String × ℚ)) : (sortDesc l).Perm l := by
  induction l with
  | nil => simp [sortDesc]
  | cons x xs ih =>
      rw [sortDesc]
      exact (insertDesc_perm x (sortDesc xs)).trans (ih.cons x)

theorem sortDesc_length (l : List (String × ℚ)) :
    (sortDesc l).length = l.length :=
  (sortDesc_perm l).length_eq

theorem filter_abs_length (b : List (String × ℚ)) :
    (b.filter (fun p => p.2 > 1/100)).length +
      (b.filter (fun p => p.2 < -(1/100))).length =
      (b.filter (fun p => |p.2| > 1/100)).length := by
  induction b with
  | nil => rfl
  | cons p rest ih =>
      simp only [List.filter_cons]
      by_cases h1 : p.2 > 1/100
      · have hA : |p.2| > 1/100 := lt_of_lt_of_le h1 (le_abs_self p.2)
        have h2 : ¬(p.2 < -(1/100)) := by linarith
        rw [if_pos (decide_eq_true h1), if_neg (by simpa using h2),
          if_pos (decide_eq_true hA)]
        simp only [List.length_cons]
        omega
      · by_cases h2 : p.2 < -(1/100)
        · have hA : |p.2| > 1/100 :=
            lt_of_lt_of_le (by linarith) (neg_le_abs p.2)
          rw [if_neg (by simpa using h1), if_pos (decide_eq_true h2),
            if_pos (decide_eq_true hA)]
          simp only [List.length_cons]
          omega
        · have hA : ¬(|p.2| > 1/100) :=
            not_lt.mpr (abs_le.mpr ⟨by linarith, by linarith⟩)
          rw [if_neg (by simpa using h1), if_neg (by simpa using h2),
            if_neg (by simpa using hA)]
          exact ih

/-- Claim C7: the simplifier ignores entries with absolute balance at
most 0.01 (filtering them away first changes nothing), returns no
transactions when every balance is within the tolerance, and emits at
most `n - 1` transactions where `n` counts the members whose absolute
balance exceeds the tolerance. -/
theorem claim_C7_tolerance_and_bound :
    (∀ b : List (String × ℚ),
      calculateMinimumTransactions (b.filter (fun p => |p.2| > 1/100)) =
        calculateMinimumTransactions b)
    ∧ (∀ b : List (String × ℚ), (∀ p ∈ b, |p.2| ≤ 1/100) →
        calculateMinimumTransactions b = [])
    ∧ (∀ b : List (String × ℚ),
        (calculateMinimumTransactions b).length ≤
          (b.filter (fun p => |p.2| > 1/100)).length - 1) := by
  refine ⟨fun b => ?_, fun b hb => ?_, fun b => ?_⟩
  · simp only [calculateMinimumTransactions]
    have h1 : (b.filter (fun p => |p.2| > 1/100)).filter
        (fun p => p.2 > 1/100) = b.filter (fun p => p.2 > 1/100) := by
      rw [List.filter_filter]
      apply List.filter_congr
      intro p hp
      simp
      exact fun h => lt_of_lt_of_le h (le_abs_self p.2)
    have h2 : (b.filter (fun p => |p.2| > 1/100)).filter
        (fun p => p.2 < -(1/100)) = b.filter (fun p => p.2 < -(1/100)) := by
      rw [List.filter_filter]
      apply List.filter_congr
      intro p hp
      simp
      exact fun h => lt_of_lt_of_le (by linarith) (neg_le_abs p.2)
    rw [h1, h2]
  · simp only [calculateMinimumTransactions]
    have h1 : b.filter (fun p => p.2 > 1/100) = [] := by
      rw [List.filter_eq_nil]
      intro p hp
      have := hb p hp
      have h2 : p.2 ≤ 1/100 := le_trans (le_abs_self p.2) this
      simp
      linarith
    rw [h1]
    simpa [sortDesc] using sweep_nil_left _
  · simp only [calculateMinimumTransactions]
    refine le_trans (sweep_length_le _ _) ?_
    rw [sortDesc_length, sortDesc_length, List.length_map]
    have := filter_abs_length b
    omega

/-- Witness for C7: a lone 0.005 balance is within tolerance and yields
no transactions. -/
theorem claim_C7_tolerance_and_bound_witness :
    (∀ p ∈ [("u1", (1 : ℚ)/200)], |p.2| ≤ 1/100) ∧
    calculateMinimumTransactions [("u1", (1 : ℚ)/200)] = [] :=
  ⟨by
    intro p hp
    rw [List.mem_singleton] at hp
    subst hp
    norm_num [abs_le],
  claim_C7_tolerance_and_bound.2.1 [("u1", (1 : ℚ)/200)] (by
    intro p hp
    rw [List.mem_singleton] at hp
    subst hp
    norm_num [abs_le])⟩

theorem even2_neg {q : ℚ} (hq : even2 q) : even2 (-q) := by
  obtain ⟨k, hk⟩ := hq
  exact ⟨-k, by rw [hk]; push_cast; ring⟩

theorem sumValues_cons (p : String × ℚ) (l : List (String × ℚ)) :
    sumValues (p :: l) = p.2 + sumValues l := by
  simp [sumValues]

theorem sumValues_nonneg (l : List (String × ℚ))
    (h : ∀ p ∈ l, 0 ≤ p.2) : 0 ≤ sumValues l := by
  induction l with
  | nil => simp [sumValues]
  | cons p rest ih =>
      rw [sumValues_cons]
      have h1 := h p (by simp)
      have h2 := ih (fun q hq => h q (by simp [hq]))
      linarith

theorem sweep_sum_even : ∀ cs ds : List (String × ℚ),
    (∀ p ∈ cs, even2 p.2 ∧ 1/50 ≤ p.2) →
    (∀ p ∈ ds, even2 p.2 ∧ 1/50 ≤ p.2) →
    sumValues cs = sumValues ds →
    ((sweep cs ds).map (fun t => t.amount)).sum = sumValues cs := by
  intro cs ds
  induction cs, ds using sweep.induct with
  | case1 ds =>
      intro _ _ _
      rw [sweep_nil_left]
      simp [sumValues]
  | case2 c cs =>
      intro hc _ hbal
      exfalso
      have h1 : sumValues ([] : List (String × ℚ)) = 0 := rfl
      have h2 : 0 ≤ sumValues cs :=
        sumValues_nonneg cs (fun q hq =>
          le_trans (by norm_num) (hc q (by simp [hq])).2)
      have h3 := (hc c (by simp)).2
      rw [sumValues_cons] at hbal
      rw [h1] at hbal
      linarith
  | case3 c cs d ds amount creditors' debtors' ih =>
      intro hc hd hbal
      have hcc := hc c (by simp)
      have hdd := hd d (by simp)
      have hcs : ∀ p ∈ cs, even2 p.2 ∧ 1/50 ≤ p.2 :=
        fun p hp => hc p (by simp [hp])
      have hds : ∀ p ∈ ds, even2 p.2 ∧ 1/50 ≤ p.2 :=
        fun p hp => hd p (by simp [hp])
      rw [sweep]
      have hemit : min c.2 d.2 > 1/100 := tol_lt_min hcc.2 hdd.2
      rw [if_pos hemit, jsRound_min_even2 hcc.1 hdd.1]
      unfold creditors' debtors' amount at ih
      simp only [dite_eq_ite] at ih
      rw [sumValues_cons, sumValues_cons] at hbal
      rcases lt_trichotomy c.2 d.2 with hlt | heq | hgt
      · have hcadv : c.2 - min c.2 d.2 < 1/100 := by
          rw [min_eq_left hlt.le, sub_self]
          norm_num
        have hdkeep : ¬(d.2 - min c.2 d.2 < 1/100) := by
          rw [min_comm]
          exact resid_not_lt hdd.1 hcc.1 hlt
        rw [if_pos hcadv, if_neg hdkeep] at ih ⊢
        rw [min_eq_left hlt.le] at ih ⊢
        have hds' : ∀ p ∈ (d.1, d.2 - c.2) :: ds, even2 p.2 ∧ 1/50 ≤ p.2 := by
          intro p hp
          rcases List.mem_cons.mp hp with rfl | hp
          · exact ⟨even2_sub hdd.1 hcc.1,
              even2_tol_le (even2_sub hdd.1 hcc.1)
                (show (0 : ℚ) < d.2 - c.2 by linarith)⟩
          · exact hds p hp
        have hbal' : sumValues cs = sumValues ((d.1, d.2 - c.2) :: ds) := by
          rw [sumValues_cons]
          show sumValues cs = d.2 - c.2 + sumValues ds
          linarith
        rw [List.map_append, List.sum_append, ih hcs hds' hbal', hbal']
        rw [sumValues_cons, sumValues_cons]
        simp
        linarith
      · have hcadv : c.2 - min c.2 d.2 < 1/100 := by
          rw [min_eq_left heq.le, sub_self]
          norm_num
        have hdadv : d.2 - min c.2 d.2 < 1/100 := by
          rw [min_eq_left heq.le, heq, sub_self]
          norm_num
        rw [if_pos hcadv, if_pos hdadv] at ih ⊢
        have hbal' : sumValues cs = sumValues ds := by linarith
        rw [List.map_append, List.sum_append, ih hcs hds hbal']
        rw [sumValues_cons, min_eq_left heq.le]
        simp
      · have hckeep : ¬(c.2 - min c.2 d.2 < 1/100) :=
          resid_not_lt hcc.1 hdd.1 hgt
        have hdadv : d.2 - min c.2 d.2 < 1/100 := by
          rw [min_eq_right hgt.le, sub_self]
          norm_num
        rw [if_neg hckeep, if_pos hdadv] at ih ⊢
        rw [min_eq_right hgt.le] at ih ⊢
        have hcs' : ∀ p ∈ (c.1, c.2 - d.2) :: cs, even2 p.2 ∧ 1/50 ≤ p.2 := by
          intro p hp
          rcases List.mem_cons.mp hp with rfl | hp
          · exact ⟨even2_sub hcc.1 hdd.1,
              even2_tol_le (even2_sub hcc.1 hdd.1)
                (show (0 : ℚ) < c.2 - d.2 by linarith)⟩
          · exact hcs p hp
        have hbal' : sumValues ((c.1, c.2 - d.2) :: cs) = sumValues ds := by
          rw [sumValues_cons]
          show c.2 - d.2 + sumValues cs = sumValues ds
          linarith
        rw [List.map_append, List.sum_append, ih hcs' hds hbal']
        rw [sumValues_cons, sumValues_cons]
        simp
        linarith

theorem sumValues_perm {l l' : List (String × ℚ)} (h : l.Perm l') :
    sumValues l = sumValues l' := by
  unfold sumValues
  exact (h.map (fun p => p.2)).sum_eq

theorem sumValues_map_negSnd (l : List (String × ℚ)) :
    sumValues (l.map (fun p => (p.1, -p.2))) = -sumValues l := by
  induction l with
  | nil => simp [sumValues]
  | cons p rest ih =>
      simp only [List.map_cons, sumValues_cons, ih]
      ring

theorem filter_pos_of_even2 (b : List (String × ℚ))
    (he : ∀ p ∈ b, even2 p.2) :
    b.filter (fun p => p.2 > 1/100) = b.filter (fun p => 0 < p.2) := by
  apply List.filter_congr
  intro p hp
  rw [decide_eq_decide]
  constructor
  · intro h
    linarith
  · intro h
    exact lt_of_lt_of_le (by norm_num) (even2_tol_le (he p hp) h)

theorem filter_neg_of_even2 (b : List (String × ℚ))
    (he : ∀ p ∈ b, even2 p.2) :
    b.filter (fun p => p.2 < -(1/100)) = b.filter (fun p => p.2 < 0) := by
  apply List.filter_congr
  intro p hp
  rw [decide_eq_decide]
  constructor
  · intro h
    linarith
  · intro h
    have h1 : 1/50 ≤ -p.2 :=
      even2_tol_le (even2_neg (he p hp)) (by linarith)
    linarith

/-- Claim C6 (amended): when every balance is an even number of cents and
the total positive balance matches the total negative magnitude, the
emitted transaction amounts sum to the total positive balance. -/
theorem claim_C6_amended (b : List (String × ℚ))
    (he : ∀ p ∈ b, even2 p.2) (hbal : totalPos b = totalNeg b) :
    ((calculateMinimumTransactions b).map (fun t => t.amount)).sum =
      totalPos b := by
  simp only [calculateMinimumTransactions]
  rw [filter_pos_of_even2 b he, filter_neg_of_even2 b he]
  have hgoodC : ∀ p ∈ sortDesc (b.filter (fun p => 0 < p.2)),
      even2 p.2 ∧ 1/50 ≤ p.2 := by
    intro p hp
    have hp' : p ∈ b.filter (fun p => 0 < p.2) :=
      (sortDesc_perm _).mem_iff.mp hp
    have hm := List.mem_filter.mp hp'
    have hpos : 0 < p.2 := by simpa using hm.2
    exact ⟨he p hm.1, even2_tol_le (he p hm.1) hpos⟩
  have hgoodD : ∀ p ∈ sortDesc ((b.filter (fun p => p.2 < 0)).map
      (fun p => (p.1, -p.2))), even2 p.2 ∧ 1/50 ≤ p.2 := by
    intro p hp
    have hp' : p ∈ (b.filter (fun p => p.2 < 0)).map (fun p => (p.1, -p.2)) :=
      (sortDesc_perm _).mem_iff.mp hp
    obtain ⟨q, hq, rfl⟩ := List.mem_map.mp hp'
    have hm := List.mem_filter.mp hq
    have hneg : q.2 < 0 := by simpa using hm.2
    refine ⟨even2_neg (he q hm.1), ?_⟩
    exact even2_tol_le (even2_neg (he q hm.1))
      (show (0 : ℚ) < -q.2 by linarith)
  have e1 : totalPos b = sumValues (b.filter (fun p => 0 < p.2)) := rfl
  have e2 : totalNeg b = -sumValues (b.filter (fun p => p.2 < 0)) := rfl
  have hbal' : sumValues (sortDesc (b.filter (fun p => 0 < p.2))) =
      sumValues (sortDesc ((b.filter (fun p => p.2 < 0)).map
        (fun p => (p.1, -p.2)))) := by
    rw [sumValues_perm (sortDesc_perm _), sumValues_perm (sortDesc_perm _),
      sumValues_map_negSnd]
    linarith
  rw [sweep_sum_even _ _ hgoodC hgoodD hbal',
    sumValues_perm (sortDesc_perm _)]
  exact e1.symm

/-- Witness for the amended C6 at a concrete even-cent input. -/
theorem claim_C6_amended_witness :
    (∀ p ∈ [("u1", (1 : ℚ)), ("u2", -(1 : ℚ))], even2 p.2) ∧
    totalPos [("u1", (1 : ℚ)), ("u2", -(1 : ℚ))] =
      totalNeg [("u1", (1 : ℚ)), ("u2", -(1 : ℚ))] ∧
    ((calculateMinimumTransactions
        [("u1", (1 : ℚ)), ("u2", -(1 : ℚ))]).map
      (fun t => t.amount)).sum =
      totalPos [("u1", (1 : ℚ)), ("u2", -(1 : ℚ))] := by
  refine ⟨?_, ?_, ?_⟩
  · intro p hp
    rcases List.mem_cons.mp hp with rfl | hp
    · exact ⟨50, by norm_num⟩
    · rcases List.mem_cons.mp hp with rfl | hp
      · exact ⟨-50, by norm_num⟩
      · simp at hp
  · norm_num [totalPos, totalNeg, List.filter]
  · exact claim_C6_amended [("u1", (1 : ℚ)), ("u2", -(1 : ℚ))]
      (by
        intro p hp
        rcases List.mem_cons.mp hp with rfl | hp
        · exact ⟨50, by norm_num⟩
        · rcases List.mem_cons.mp hp with rfl | hp
          · exact ⟨-50, by norm_num⟩
          · simp at hp)
      (by norm_num [totalPos, totalNeg, List.filter])

/-- Counterexample to C6 as stated: the balanced whole-cent map
`{u1: +1.01, u2: +0.03, u3: -1.00, u4: -0.04}` has total positive
balance 1.04, yet the sweep emits transactions totalling only 1.03 --
the step that should move one cent from `u3`'s remainder to `u1`'s
remaining 0.01 is below the emission threshold and is silently skipped,
while the amounts are still decremented. -/
theorem claim_C6_counterexample :
    totalPos [("u1", (101 : ℚ)/100), ("u2", 3/100), ("u3", -1),
        ("u4", -(4 : ℚ)/100)] =
      totalNeg [("u1", (101 : ℚ)/100), ("u2", 3/100), ("u3", -1),
        ("u4", -(4 : ℚ)/100)]
    ∧ ((calculateMinimumTransactions
          [("u1", (101 : ℚ)/100), ("u2", 3/100), ("u3", -1),
            ("u4", -(4 : ℚ)/100)]).map (fun t => t.amount)).sum ≠
        totalPos [("u1", (101 : ℚ)/100), ("u2", 3/100), ("u3", -1),
          ("u4", -(4 : ℚ)/100)] := by
  constructor
  · norm_num [totalPos, totalNeg, List.filter]
  · have hcalc : calculateMinimumTransactions
        [("u1", (101 : ℚ)/100), ("u2", 3/100), ("u3", -1),
          ("u4", -(4 : ℚ)/100)] =
        [⟨"u3", "u1", 1⟩, ⟨"u4", "u2", 3/100⟩] := by
      norm_num +decide [calculateMinimumTransactions, sortDesc, insertDesc,
        sweep, jsRound, round_eq, Int.floor_eq_iff, List.filter]
    rw [hcalc]
    norm_num [totalPos, List.filter]

theorem mem_ids_of_mem {p : String × ℚ} {l : List (String × ℚ)}
    (h : p ∈ l) : p.1 ∈ ids l :=
  List.mem_map.mpr ⟨p, h, rfl⟩

theorem sweep_settle : ∀ cs ds : List (String × ℚ),
    (∀ p ∈ cs, even2 p.2 ∧ 1/50 ≤ p.2) →
    (∀ p ∈ ds, even2 p.2 ∧ 1/50 ≤ p.2) →
    (ids cs ++ ids ds).Nodup →
    ((∀ p ∈ cs, recvBy (sweep cs ds) p.1 ≤ p.2)
     ∧ (∀ p ∈ ds, paidBy (sweep cs ds) p.1 ≤ p.2)
     ∧ ((∀ p ∈ cs, recvBy (sweep cs ds) p.1 = p.2)
        ∨ (∀ p ∈ ds, paidBy (sweep cs ds) p.1 = p.2))) := by
  intro cs ds
  induction cs, ds using sweep.induct with
  | case1 ds =>
      intro _ hd _
      rw [sweep_nil_left]
      refine ⟨by simp, ?_, Or.inl (by simp)⟩
      intro p hp
      rw [paidBy_nil]
      linarith [(hd p hp).2]
  | case2 c cs =>
      intro hc _ _
      rw [sweep_nil_right]
      refine ⟨?_, by simp, Or.inr (by simp)⟩
      intro p hp
      rw [recvBy_nil]
      linarith [(hc p hp).2]
  | case3 c cs d ds amount creditors' debtors' ih =>
      intro hc hd hnd
      have hcc := hc c (by simp)
      have hdd := hd d (by simp)
      have hcs : ∀ p ∈ cs, even2 p.2 ∧ 1/50 ≤ p.2 :=
        fun p hp => hc p (by simp [hp])
      have hds : ∀ p ∈ ds, even2 p.2 ∧ 1/50 ≤ p.2 :=
        fun p hp => hd p (by simp [hp])
      have hnd1 : (ids (c :: cs) ++ ids (d :: ds)) =
          c.1 :: (ids cs ++ d.1 :: ids ds) := by
        simp [ids]
      rw [hnd1] at hnd
      have hc1 : c.1 ∉ ids cs ++ d.1 :: ids ds := (List.nodup_cons.mp hnd).1
      have hrest : (ids cs ++ d.1 :: ids ds).Nodup := (List.nodup_cons.mp hnd).2
      have f1 : c.1 ∉ ids cs := fun h => hc1 (List.mem_append.mpr (Or.inl h))
      have f3 : c.1 ∉ ids ds :=
        fun h => hc1 (List.mem_append.mpr (Or.inr (by simp [h])))
      have hra := List.nodup_append.mp hrest
      have f2 : d.1 ∉ ids ds := (List.nodup_cons.mp hra.2.1).1
      have f4 : d.1 ∉ ids cs := fun h => hra.2.2 h (by simp)
      have f5 : ∀ p ∈ cs, p.1 ≠ c.1 :=
        fun p hp h => f1 (h ▸ mem_ids_of_mem hp)
      have f6 : ∀ p ∈ ds, p.1 ≠ d.1 :=
        fun p hp h => f2 (h ▸ mem_ids_of_mem hp)
      rw [sweep]
      have hemit : min c.2 d.2 > 1/100 := tol_lt_min hcc.2 hdd.2
      rw [if_pos hemit, jsRound_min_even2 hcc.1 hdd.1]
      unfold creditors' debtors' amount at ih
      simp only [dite_eq_ite] at ih
      rcases lt_trichotomy c.2 d.2 with hlt | heq | hgt
      · -- creditor exhausted, debtor keeps a remainder
        have hcadv : c.2 - min c.2 d.2 < 1/100 := by
          rw [min_eq_left hlt.le, sub_self]
          norm_num
        have hdkeep : ¬(d.2 - min c.2 d.2 < 1/100) := by
          rw [min_comm]
          exact resid_not_lt hdd.1 hcc.1 hlt
        rw [if_pos hcadv, if_neg hdkeep] at ih ⊢
        rw [min_eq_left hlt.le] at ih ⊢
        have hds' : ∀ p ∈ (d.1, d.2 - c.2) :: ds, even2 p.2 ∧ 1/50 ≤ p.2 := by
          intro p hp
          rcases List.mem_cons.mp hp with hpe | hp
          · subst p
            exact ⟨even2_sub hdd.1 hcc.1,
              even2_tol_le (even2_sub hdd.1 hcc.1)
                (show (0 : ℚ) < d.2 - c.2 by linarith)⟩
          · exact hds p hp
        have hnd' : (ids cs ++ ids ((d.1, d.2 - c.2) :: ds)).Nodup := by
          simpa [ids] using hrest
        obtain ⟨IH1, IH2, IH3⟩ := ih hcs hds' hnd'
        have hrecv0 : recvBy (sweep cs ((d.1, d.2 - c.2) :: ds)) c.1 = 0 :=
          recvBy_sweep_zero _ _ _ f1
        refine ⟨?_, ?_, ?_⟩
        · intro p hp
          rcases List.mem_cons.mp hp with hpe | hp
          · subst p
            rw [List.singleton_append, recvBy_cons, if_pos rfl, hrecv0]
            simp
          · rw [List.singleton_append, recvBy_cons,
              if_neg (fun h => f5 p hp h.symm)]
            have := IH1 p hp
            linarith
        · intro p hp
          rcases List.mem_cons.mp hp with hpe | hp
          · subst p
            rw [List.singleton_append, paidBy_cons, if_pos rfl]
            have := IH2 (d.1, d.2 - c.2) (by simp)
            have h2 : paidBy (sweep cs ((d.1, d.2 - c.2) :: ds)) d.1 ≤
                d.2 - c.2 := this
            linarith
          · rw [List.singleton_append, paidBy_cons,
              if_neg (fun h => f6 p hp h.symm)]
            have := IH2 p (by simp [hp])
            linarith
        · rcases IH3 with L | R
          · left
            intro p hp
            rcases List.mem_cons.mp hp with hpe | hp
            · subst p
              rw [List.singleton_append, recvBy_cons, if_pos rfl, hrecv0]
              simp
            · rw [List.singleton_append, recvBy_cons,
                if_neg (fun h => f5 p hp h.symm)]
              have := L p hp
              linarith
          · right
            intro p hp
            rcases List.mem_cons.mp hp with hpe | hp
            · subst p
              rw [List.singleton_append, paidBy_cons, if_pos rfl]
              have h2 : paidBy (sweep cs ((d.1, d.2 - c.2) :: ds)) d.1 =
                  d.2 - c.2 := R (d.1, d.2 - c.2) (by simp)
              linarith
            · rw [List.singleton_append, paidBy_cons,
                if_neg (fun h => f6 p hp h.symm)]
              have := R p (by simp [hp])
              linarith
      · -- equal amounts: both exhausted
        have hcadv : c.2 - min c.2 d.2 < 1/100 := by
          rw [min_eq_left heq.le, sub_self]
          norm_num
        have hdadv : d.2 - min c.2 d.2 < 1/100 := by
          rw [min_eq_left heq.le, heq, sub_self]
          norm_num
        rw [if_pos hcadv, if_pos hdadv] at ih ⊢
        rw [min_eq_left heq.le]
        have hnd' : (ids cs ++ ids ds).Nodup :=
          hrest.sublist (List.Sublist.append_left
            (List.Sublist.cons _ (List.Sublist.refl _)) _)
        obtain ⟨IH1, IH2, IH3⟩ := ih hcs hds hnd'
        have hrecv0 : recvBy (sweep cs ds) c.1 = 0 :=
          recvBy_sweep_zero _ _ _ f1
        have hpaid0 : paidBy (sweep cs ds) d.1 = 0 :=
          paidBy_sweep_zero _ _ _ f2
        refine ⟨?_, ?_, ?_⟩
        · intro p hp
          rcases List.mem_cons.mp hp with hpe | hp
          · subst p
            rw [List.singleton_append, recvBy_cons, if_pos rfl, hrecv0]
            simp
          · rw [List.singleton_append, recvBy_cons,
              if_neg (fun h => f5 p hp h.symm)]
            have := IH1 p hp
            linarith
        · intro p hp
          rcases List.mem_cons.mp hp with hpe | hp
          · subst p
            rw [List.singleton_append, paidBy_cons, if_pos rfl, hpaid0]
            simp
            linarith
          · rw [List.singleton_append, paidBy_cons,
              if_neg (fun h => f6 p hp h.symm)]
            have := IH2 p hp
            linarith
        · rcases IH3 with L | R
          · left
            intro p hp
            rcases List.mem_cons.mp hp with hpe | hp
            · subst p
              rw [List.singleton_append, recvBy_cons, if_pos rfl, hrecv0]
              simp
            · rw [List.singleton_append, recvBy_cons,
                if_neg (fun h => f5 p hp h.symm)]
              rw [L p hp]
              ring
          · right
            intro p hp
            rcases List.mem_cons.mp hp with hpe | hp
            · subst p
              rw [List.singleton_append, paidBy_cons, if_pos rfl, hpaid0]
              simp
              linarith
            · rw [List.singleton_append, paidBy_cons,
                if_neg (fun h => f6 p hp h.symm)]
              rw [R p hp]
              ring
      · -- debtor exhausted, creditor keeps a remainder
        have hckeep : ¬(c.2 - min c.2 d.2 < 1/100) :=
          resid_not_lt hcc.1 hdd.1 hgt
        have hdadv : d.2 - min c.2 d.2 < 1/100 := by
          rw [min_eq_right hgt.le, sub_self]
          norm_num
        rw [if_neg hckeep, if_pos hdadv] at ih ⊢
        rw [min_eq_right hgt.le] at ih ⊢
        have hcs' : ∀ p ∈ (c.1, c.2 - d.2) :: cs, even2 p.2 ∧ 1/50 ≤ p.2 := by
          intro p hp
          rcases List.mem_cons.mp hp with hpe | hp
          · subst p
            exact ⟨even2_sub hcc.1 hdd.1,
              even2_tol_le (even2_sub hcc.1 hdd.1)
                (show (0 : ℚ) < c.2 - d.2 by linarith)⟩
          · exact hcs p hp
        have hnd' : (ids ((c.1, c.2 - d.2) :: cs) ++ ids ds).Nodup := by
          have hsub : (c.1 :: (ids cs ++ ids ds)).Sublist
              (c.1 :: (ids cs ++ d.1 :: ids ds)) :=
            List.Sublist.cons₂ _ (List.Sublist.append_left
              (List.Sublist.cons _ (List.Sublist.refl _)) _)
          have := hnd.sublist hsub
          simpa [ids] using this
        obtain ⟨IH1, IH2, IH3⟩ := ih hcs' hds hnd'
        have hpaid0 : paidBy (sweep ((c.1, c.2 - d.2) :: cs) ds) d.1 = 0 :=
          paidBy_sweep_zero _ _ _ f2
        refine ⟨?_, ?_, ?_⟩
        · intro p hp
          rcases List.mem_cons.mp hp with hpe | hp
          · subst p
            rw [List.singleton_append, recvBy_cons, if_pos rfl]
            have h2 : recvBy (sweep ((c.1, c.2 - d.2) :: cs) ds) c.1 ≤
                c.2 - d.2 := IH1 (c.1, c.2 - d.2) (by simp)
            linarith
          · rw [List.singleton_append, recvBy_cons,
              if_neg (fun h => f5 p hp h.symm)]
            have := IH1 p (by simp [hp])
            linarith
        · intro p hp
          rcases List.mem_cons.mp hp with hpe | hp
          · subst p
            rw [List.singleton_append, paidBy_cons, if_pos rfl, hpaid0]
            simp
          · rw [List.singleton_append, paidBy_cons,
              if_neg (fun h => f6 p hp h.symm)]
            have := IH2 p hp
            linarith
        · rcases IH3 with L | R
          · left
            intro p hp
            rcases List.mem_cons.mp hp with hpe | hp
            · subst p
              rw [List.singleton_append, recvBy_cons, if_pos rfl]
              have h2 : recvBy (sweep ((c.1, c.2 - d.2) :: cs) ds) c.1 =
                  c.2 - d.2 := L (c.1, c.2 - d.2) (by simp)
              linarith
            · rw [List.singleton_append, recvBy_cons,
                if_neg (fun h => f5 p hp h.symm)]
              have := L p (by simp [hp])
              linarith
          · right
            intro p hp
            rcases List.mem_cons.mp hp with hpe | hp
            · subst p
              rw [List.singleton_append, paidBy_cons, if_pos rfl, hpaid0]
              simp
            · rw [List.singleton_append, paidBy_cons,
                if_neg (fun h => f6 p hp h.symm)]
              rw [R p hp]
              ring

theorem mapGet_entry (m : List (String × ℚ)) (p : String × ℚ)
    (h : (keys m).Nodup) (hp : p ∈ m) : mapGet m p.1 = p.2 := by
  induction m with
  | nil => simp at hp
  | cons q rest ih =>
      rcases List.mem_cons.mp hp with hpe | hp
      · subst p
        rw [mapGet_cons, if_pos rfl]
      · have hq1 : ¬(q.1 = p.1) := by
          intro hc
          have h2 := h
          simp only [keys, List.map_cons, List.nodup_cons] at h2
          exact h2.1 (by
            rw [hc]
            exact List.mem_map.mpr ⟨p, hp, rfl⟩)
        rw [mapGet_cons, if_neg hq1]
        exact ih (keys_nodup_of_cons q rest h) hp

theorem keys_nodup_inj (m : List (String × ℚ)) (p q : String × ℚ)
    (h : (keys m).Nodup) (hp : p ∈ m) (hq : q ∈ m) (hpq : p.1 = q.1) :
    p = q := by
  have h1 := mapGet_entry m p h hp
  have h2 := mapGet_entry m q h hq
  rw [hpq] at h1
  have : p.2 = q.2 := by rw [← h1, h2]
  exact Prod.ext hpq this

theorem keys_nodup_applyTransaction (b : List (String × ℚ))
    (t : Transaction) (h : (keys b).Nodup) :
    (keys (applyTransaction b t)).Nodup := by
  simp only [applyTransaction]
  exact keys_mapSet_nodup _ _ _ (keys_mapSet_nodup _ _ _ h)

theorem mapGet_applyTransaction (b : List (String × ℚ)) (t : Transaction)
    (x : String) (h : (keys b).Nodup) :
    mapGet (applyTransaction b t) x =
      mapGet b x + (if t.from_ = x then t.amount else 0)
        - (if t.to_ = x then t.amount else 0) := by
  simp only [applyTransaction]
  have h1 : (keys (mapSet b t.from_ (mapGet b t.from_ + t.amount))).Nodup :=
    keys_mapSet_nodup _ _ _ h
  split_ifs with hp hq hq
  · rw [hq, mapGet_mapSet_self _ _ _ h1, hp, mapGet_mapSet_self _ _ _ h]
    try ring
  · rw [mapGet_mapSet_of_ne _ _ _ _ hq h1, hp, mapGet_mapSet_self _ _ _ h]
    try ring
  · rw [hq, mapGet_mapSet_self _ _ _ h1, mapGet_mapSet_of_ne _ _ _ _ hp h]
    try ring
  · rw [mapGet_mapSet_of_ne _ _ _ _ hq h1, mapGet_mapSet_of_ne _ _ _ _ hp h]
    try ring

theorem keys_nodup_applyTransactions (b : List (String × ℚ))
    (ts : List Transaction) (h : (keys b).Nodup) :
    (keys (applyTransactions b ts)).Nodup := by
  induction ts generalizing b with
  | nil => simpa [applyTransactions]
  | cons t rest ih =>
      simp only [applyTransactions, List.foldl_cons]
      exact ih _ (keys_nodup_applyTransaction _ _ h)

theorem mapGet_applyTransactions (b : List (String × ℚ))
    (ts : List Transaction) (x : String) (h : (keys b).Nodup) :
    mapGet (applyTransactions b ts) x =
      mapGet b x + paidBy ts x - recvBy ts x := by
  induction ts generalizing b with
  | nil => simp [applyTransactions, paidBy_nil, recvBy_nil]
  | cons t rest ih =>
      simp only [applyTransactions, List.foldl_cons] at ih ⊢
      rw [ih _ (keys_nodup_applyTransaction _ _ h),
        mapGet_applyTransaction _ _ _ h, paidBy_cons, recvBy_cons]
      ring

theorem ids_map_negSnd (l : List (String × ℚ)) :
    ids (l.map (fun p => (p.1, -p.2))) = ids l := by
  simp [ids, List.map_map, Function.comp]

theorem mem_ids_iff {x : String} {l : List (String × ℚ)} :
    x ∈ ids l ↔ ∃ p ∈ l, p.1 = x := by
  simp [ids]

theorem ids_perm {l l' : List (String × ℚ)} (h : l.Perm l') :
    (ids l).Perm (ids l') := h.map _

theorem ids_filter_sublist (b : List (String × ℚ))
    (q : String × ℚ → Bool) : (ids (b.filter q)).Sublist (keys b) := by
  unfold ids keys
  exact (List.filter_sublist _).map _

/-- Claim C8 (amended): on balance maps with unique member keys whose
balances are all even numbers of cents, applying the emitted transactions
(payer up, recipient down) yields a map on which the simplifier returns
no transactions. -/
theorem claim_C8_amended (b : List (String × ℚ))
    (hnod : (keys b).Nodup) (he : ∀ p ∈ b, even2 p.2) :
    calculateMinimumTransactions
      (applyTransactions b (calculateMinimumTransactions b)) = [] := by
  set csS := sortDesc (b.filter (fun p => p.2 > 1/100)) with hcs
  set dsS := sortDesc ((b.filter (fun p => p.2 < -(1/100))).map
    (fun p => (p.1, -p.2))) with hds
  have hunfold : calculateMinimumTransactions b = sweep csS dsS := by
    rw [hcs, hds]
    rfl
  have hgoodC : ∀ p ∈ csS, even2 p.2 ∧ 1/50 ≤ p.2 := by
    intro p hp
    rw [hcs] at hp
    have hp' := (sortDesc_perm _).mem_iff.mp hp
    have hm := List.mem_filter.mp hp'
    have hpos : p.2 > 1/100 := by simpa using hm.2
    exact ⟨he p hm.1, even2_tol_le (he p hm.1) (by linarith)⟩
  have hgoodD : ∀ p ∈ dsS, even2 p.2 ∧ 1/50 ≤ p.2 := by
    intro p hp
    rw [hds] at hp
    have hp' := (sortDesc_perm _).mem_iff.mp hp
    obtain ⟨q, hq, rfl⟩ := List.mem_map.mp hp'
    have hm := List.mem_filter.mp hq
    have hneg : q.2 < -(1/100) := by simpa using hm.2
    exact ⟨even2_neg (he q hm.1),
      even2_tol_le (even2_neg (he q hm.1)) (show (0 : ℚ) < -q.2 by linarith)⟩
  have hidsC : (ids csS).Perm (ids (b.filter (fun p => p.2 > 1/100))) := by
    rw [hcs]
    exact ids_perm (sortDesc_perm _)
  have hidsD : (ids dsS).Perm (ids (b.filter (fun p => p.2 < -(1/100)))) := by
    rw [hds]
    have h1 := ids_perm (sortDesc_perm ((b.filter
      (fun p => p.2 < -(1/100))).map (fun p => (p.1, -p.2))))
    rw [ids_map_negSnd] at h1
    exact h1
  have hnodC : (ids (b.filter (fun p => p.2 > 1/100))).Nodup :=
    hnod.sublist (ids_filter_sublist b _)
  have hnodD : (ids (b.filter (fun p => p.2 < -(1/100)))).Nodup :=
    hnod.sublist (ids_filter_sublist b _)
  have hdisj : ∀ x, x ∈ ids (b.filter (fun p => p.2 > 1/100)) →
      x ∈ ids (b.filter (fun p => p.2 < -(1/100))) → False := by
    intro x hx1 hx2
    obtain ⟨p, hp, hpx⟩ := mem_ids_iff.mp hx1
    obtain ⟨q, hq, hqx⟩ := mem_ids_iff.mp hx2
    have hpb := (List.mem_filter.mp hp).1
    have hqb := (List.mem_filter.mp hq).1
    have hpP : p.2 > 1/100 := by simpa using (List.mem_filter.mp hp).2
    have hqN : q.2 < -(1/100) := by simpa using (List.mem_filter.mp hq).2
    have hpq : p = q := keys_nodup_inj b p q hnod hpb hqb (by rw [hpx, hqx])
    rw [hpq] at hpP
    linarith
  have hndS : (ids csS ++ ids dsS).Nodup := by
    rw [List.nodup_append]
    refine ⟨hidsC.nodup_iff.mpr hnodC, hidsD.nodup_iff.mpr hnodD, ?_⟩
    intro x hx1 hx2
    exact hdisj x (hidsC.mem_iff.mp hx1) (hidsD.mem_iff.mp hx2)
  obtain ⟨S1, S2, S3⟩ := sweep_settle csS dsS hgoodC hgoodD hndS
  have hdisjS : ∀ x, x ∈ ids csS → x ∈ ids dsS → False := by
    intro x hx1 hx2
    exact hdisj x (hidsC.mem_iff.mp hx1) (hidsD.mem_iff.mp hx2)
  have hpostnodup :=
    keys_nodup_applyTransactions b (calculateMinimumTransactions b) hnod
  have hval : ∀ x, mapGet (applyTransactions b
      (calculateMinimumTransactions b)) x =
      mapGet b x + paidBy (sweep csS dsS) x - recvBy (sweep csS dsS) x := by
    intro x
    rw [← hunfold]
    exact mapGet_applyTransactions b _ x hnod
  rcases S3 with SL | SR
  · -- every creditor fully settled: post map has no balance above +0.01
    have hbound : ∀ x, mapGet b x + paidBy (sweep csS dsS) x -
        recvBy (sweep csS dsS) x ≤ 1/100 := by
      intro x
      by_cases hxc : x ∈ ids csS
      · obtain ⟨p, hpcs, hpx⟩ := mem_ids_iff.mp hxc
        subst hpx
        have hpfil : p ∈ b.filter (fun p => p.2 > 1/100) := by
          rw [hcs] at hpcs
          exact (sortDesc_perm _).mem_iff.mp hpcs
        have hpb := (List.mem_filter.mp hpfil).1
        have hrecv := SL p hpcs
        have hget : mapGet b p.1 = p.2 := mapGet_entry b p hnod hpb
        have hpaid0 : paidBy (sweep csS dsS) p.1 = 0 :=
          paidBy_sweep_zero _ _ _
            (fun hmem => hdisjS p.1 (mem_ids_of_mem hpcs) hmem)
        rw [hget, hrecv, hpaid0]
        norm_num
      · by_cases hxd : x ∈ ids dsS
        · obtain ⟨p', hpds, hpx⟩ := mem_ids_iff.mp hxd
          subst hpx
          have hp'm : p' ∈ (b.filter (fun p => p.2 < -(1/100))).map
              (fun p => (p.1, -p.2)) := by
            rw [hds] at hpds
            exact (sortDesc_perm _).mem_iff.mp hpds
          obtain ⟨q, hq, hq'⟩ := List.mem_map.mp hp'm
          have hqb := (List.mem_filter.mp hq).1
          have hget : mapGet b p'.1 = q.2 := by
            rw [← hq']
            exact mapGet_entry b q hnod hqb
          have hrecv0 : recvBy (sweep csS dsS) p'.1 = 0 :=
            recvBy_sweep_zero _ _ _ hxc
          have hpaid := S2 p' hpds
          have hp2 : p'.2 = -q.2 := by rw [← hq']
          rw [hget, hrecv0]
          rw [hp2] at hpaid
          linarith
        · have hpaid0 : paidBy (sweep csS dsS) x = 0 :=
            paidBy_sweep_zero _ _ _ hxd
          have hrecv0 : recvBy (sweep csS dsS) x = 0 :=
            recvBy_sweep_zero _ _ _ hxc
          rw [hpaid0, hrecv0]
          by_cases hxb : x ∈ keys b
          · obtain ⟨r, hr, hrx⟩ := List.mem_map.mp hxb
            subst hrx
            have hget : mapGet b r.1 = r.2 := mapGet_entry b r hnod hr
            have hnotP : ¬(r.2 > 1/100) := by
              intro hP
              apply hxc
              apply hidsC.mem_iff.mpr
              exact mem_ids_iff.mpr
                ⟨r, List.mem_filter.mpr ⟨hr, by simpa using hP⟩, rfl⟩
            rw [hget]
            linarith [not_lt.mp hnotP]
          · rw [mapGet_eq_zero_of_not_mem b x hxb]
            norm_num
    have hfilter : (applyTransactions b
        (calculateMinimumTransactions b)).filter
          (fun p => p.2 > 1/100) = [] := by
      rw [List.filter_eq_nil]
      intro p hp
      have hv : p.2 = mapGet (applyTransactions b
          (calculateMinimumTransactions b)) p.1 :=
        (mapGet_entry _ p hpostnodup hp).symm
      simp only [decide_eq_true_eq]
      rw [hv, hval p.1]
      exact not_lt.mpr (hbound p.1)
    rw [show calculateMinimumTransactions (applyTransactions b
        (calculateMinimumTransactions b)) =
        sweep (sortDesc ((applyTransactions b
          (calculateMinimumTransactions b)).filter (fun p => p.2 > 1/100)))
          (sortDesc (((applyTransactions b
            (calculateMinimumTransactions b)).filter
              (fun p => p.2 < -(1/100))).map (fun p => (p.1, -p.2))))
      from rfl, hfilter]
    rw [show sortDesc [] = [] from rfl]
    exact sweep_nil_left _
  · -- every debtor fully settled: post map has no balance below -0.01
    have hbound : ∀ x, -(1/100) ≤ mapGet b x + paidBy (sweep csS dsS) x -
        recvBy (sweep csS dsS) x := by
      intro x
      by_cases hxc : x ∈ ids csS
      · obtain ⟨p, hpcs, hpx⟩ := mem_ids_iff.mp hxc
        subst hpx
        have hpfil : p ∈ b.filter (fun p => p.2 > 1/100) := by
          rw [hcs] at hpcs
          exact (sortDesc_perm _).mem_iff.mp hpcs
        have hpb := (List.mem_filter.mp hpfil).1
        have hrecv := S1 p hpcs
        have hget : mapGet b p.1 = p.2 := mapGet_entry b p hnod hpb
        have hpaid0 : paidBy (sweep csS dsS) p.1 = 0 :=
          paidBy_sweep_zero _ _ _
            (fun hmem => hdisjS p.1 (mem_ids_of_mem hpcs) hmem)
        rw [hget, hpaid0]
        linarith
      · by_cases hxd : x ∈ ids dsS
        · obtain ⟨p', hpds, hpx⟩ := mem_ids_iff.mp hxd
          subst hpx
          have hp'm : p' ∈ (b.filter (fun p => p.2 < -(1/100))).map
              (fun p => (p.1, -p.2)) := by
            rw [hds] at hpds
            exact (sortDesc_perm _).mem_iff.mp hpds
          obtain ⟨q, hq, hq'⟩ := List.mem_map.mp hp'm
          have hqb := (List.mem_filter.mp hq).1
          have hget : mapGet b p'.1 = q.2 := by
            rw [← hq']
            exact mapGet_entry b q hnod hqb
          have hrecv0 : recvBy (sweep csS dsS) p'.1 = 0 :=
            recvBy_sweep_zero _ _ _ hxc
          have hpaid := SR p' hpds
          have hp2 : p'.2 = -q.2 := by rw [← hq']
          rw [hget, hrecv0, hpaid, hp2]
          norm_num
        · have hpaid0 : paidBy (sweep csS dsS) x = 0 :=
            paidBy_sweep_zero _ _ _ hxd
          have hrecv0 : recvBy (sweep csS dsS) x = 0 :=
            recvBy_sweep_zero _ _ _ hxc
          rw [hpaid0, hrecv0]
          by_cases hxb : x ∈ keys b
          · obtain ⟨r, hr, hrx⟩ := List.mem_map.mp hxb
            subst hrx
            have hget : mapGet b r.1 = r.2 := mapGet_entry b r hnod hr
            have hnotN : ¬(r.2 < -(1/100)) := by
              intro hN
              apply hxd
              apply hidsD.mem_iff.mpr
              exact mem_ids_iff.mpr
                ⟨r, List.mem_filter.mpr ⟨hr, by simpa using hN⟩, rfl⟩
            rw [hget]
            linarith [not_lt.mp hnotN]
          · rw [mapGet_eq_zero_of_not_mem b x hxb]
            norm_num
    have hfilter : (applyTransactions b
        (calculateMinimumTransactions b)).filter
          (fun p => p.2 < -(1/100)) = [] := by
      rw [List.filter_eq_nil]
      intro p hp
      have hv : p.2 = mapGet (applyTransactions b
          (calculateMinimumTransactions b)) p.1 :=
        (mapGet_entry _ p hpostnodup hp).symm
      simp only [decide_eq_true_eq]
      rw [hv, hval p.1]
      exact not_lt.mpr (hbound p.1)
    rw [show calculateMinimumTransactions (applyTransactions b
        (calculateMinimumTransactions b)) =
        sweep (sortDesc ((applyTransactions b
          (calculateMinimumTransactions b)).filter (fun p => p.2 > 1/100)))
          (sortDesc (((applyTransactions b
            (calculateMinimumTransactions b)).filter
              (fun p => p.2 < -(1/100))).map (fun p => (p.1, -p.2))))
      from rfl, hfilter]
    rw [show (([] : List (String × ℚ)).map (fun p => (p.1, -p.2))) = []
      from rfl]
    rw [show sortDesc [] = [] from rfl]
    exact sweep_nil_right _

/-- Witness for the amended C8 at a concrete even-cent input. -/
theorem claim_C8_amended_witness :
    (keys [("u1", (1 : ℚ)), ("u2", -(1 : ℚ))]).Nodup ∧
    (∀ p ∈ [("u1", (1 : ℚ)), ("u2", -(1 : ℚ))], even2 p.2) ∧
    calculateMinimumTransactions
      (applyTransactions [("u1", (1 : ℚ)), ("u2", -(1 : ℚ))]
        (calculateMinimumTransactions
          [("u1", (1 : ℚ)), ("u2", -(1 : ℚ))])) = [] := by
  refine ⟨by simp [keys], ?_, ?_⟩
  · intro p hp
    rcases List.mem_cons.mp hp with rfl | hp
    · exact ⟨50, by norm_num⟩
    · rcases List.mem_cons.mp hp with rfl | hp
      · exact ⟨-50, by norm_num⟩
      · simp at hp
  · exact claim_C8_amended [("u1", (1 : ℚ)), ("u2", -(1 : ℚ))]
      (by simp [keys])
      (by
        intro p hp
        rcases List.mem_cons.mp hp with rfl | hp
        · exact ⟨50, by norm_num⟩
        · rcases List.mem_cons.mp hp with rfl | hp
          · exact ⟨-50, by norm_num⟩
          · simp at hp)

/-- Counterexample to C8 as stated: on the whole-cent map
`{A: +0.03, B: +0.02, C: -0.04, D: -0.02}` the first pass emits only
`C -> A : 0.03` (its two remaining one-cent matches fail the
`amount > 0.01` emission check while still being decremented), so after
applying that transaction the balances `B: +0.02` and `D: -0.02`
remain and a second pass still emits `D -> B : 0.02`. -/
theorem claim_C8_counterexample :
    calculateMinimumTransactions (applyTransactions
      [("A", (3 : ℚ)/100), ("B", (2 : ℚ)/100), ("C", -(4 : ℚ)/100),
        ("D", -(2 : ℚ)/100)]
      (calculateMinimumTransactions
        [("A", (3 : ℚ)/100), ("B", (2 : ℚ)/100), ("C", -(4 : ℚ)/100),
          ("D", -(2 : ℚ)/100)])) ≠ [] := by
  have h1 : calculateMinimumTransactions
      [("A", (3 : ℚ)/100), ("B", (2 : ℚ)/100), ("C", -(4 : ℚ)/100),
        ("D", -(2 : ℚ)/100)] = [⟨"C", "A", 3/100⟩] := by
    norm_num +decide [calculateMinimumTransactions, sortDesc, insertDesc,
      sweep, jsRound, round_eq, Int.floor_eq_iff, List.filter]
  rw [h1]
  have h2 : applyTransactions
      [("A", (3 : ℚ)/100), ("B", (2 : ℚ)/100), ("C", -(4 : ℚ)/100),
        ("D", -(2 : ℚ)/100)] [⟨"C", "A", 3/100⟩] =
      [("A", (0 : ℚ)), ("B", (2 : ℚ)/100), ("C", -(1 : ℚ)/100),
        ("D", -(2 : ℚ)/100)] := by
    norm_num +decide [applyTransactions, applyTransaction, mapGet, mapSet,
      List.find?, List.any]
  rw [h2]
  have h3 : calculateMinimumTransactions
      [("A", (0 : ℚ)), ("B", (2 : ℚ)/100), ("C", -(1 : ℚ)/100),
        ("D", -(2 : ℚ)/100)] = [⟨"D", "B", 2/100⟩] := by
    norm_num +decide [calculateMinimumTransactions, sortDesc, insertDesc,
      sweep, jsRound, round_eq, Int.floor_eq_iff, List.filter]
  rw [h3]
  simp

end Splitwise

section Sanity

open Splitwise

example :
    calculateSplits 100 ["a", "b"] "equal" =
      .ok [⟨"a", 50⟩, ⟨"b", 50⟩] := by
  norm_num [calculateSplits, calculateEqualSplit, jsFloor, jsRound,
    List.mapIdx_cons, Int.floor_eq_iff]

example :
    calculateSplits 100 ["a", "b", "c"] "equal" =
      .ok [⟨"a", 3334/100⟩, ⟨"b", 3333/100⟩, ⟨"c", 3333/100⟩] := by
  norm_num [calculateSplits, calculateEqualSplit, jsFloor, jsRound,
    List.mapIdx_cons, Int.floor_eq_iff, round_eq]

example :
    calculateSplits 100 ["a", "b"] "percentage"
      (some [⟨"a", none, some 60⟩, ⟨"b", none, some 40⟩]) =
      .ok [⟨"a", 60⟩, ⟨"b", 40⟩] := by
  norm_num +decide [calculateSplits, calculatePercentageSplit, jsRound, round_eq,
    Int.floor_eq_iff]

example :
    isError (calculateSplits 100 ["a", "b"] "exact"
      (some [⟨"a", some 70, none⟩, ⟨"b", some 20, none⟩])) = true := by
  norm_num +decide [calculateSplits, calculateExactSplit, isError]

end Sanity
